import Mathlib

/-!
Verification of the aisdk-go streaming core against its specification.

This file gives a shallow embedding, in Lean 4, of the parts of the
repository that the specification's claims are about:

* the JSON value model used for `map[string]any` / `any` payloads,
  together with a serializer mirroring Go's `encoding/json.Marshal`
  (struct fields in declaration order, strings escaped the way Go's
  encoder escapes them, `[]byte` as standard base64) and a parser
  mirroring `encoding/json.Unmarshal`;
* the Data Stream part model with `TypeID` and `Format` (file
  `stream.go`, type `DataStreamPart` and its sixteen variants);
* `DataStreamAccumulator.Push` and its helpers, with the Go
  `map[string]*Part` of in-progress tool calls modelled as an
  association list from tool-call id to the index of the pointed-at
  part inside the current message's part list (parts are only ever
  appended while a message is in progress, so indices are stable
  exactly like the Go pointers);
* the `WithToolCalling` middleware as a list transducer that also
  records the sequence of handler invocations;
* the streaming adapters `AnthropicToDataStream`,
  `PipeAnthropicToDataStream`, `GoogleToDataStream` and
  `OpenAIToDataStream`, with the vendor SDK event types modelled as
  plain inductive data and the vendor stream modelled as the list of
  events it yields plus an optional terminal error.

Downstream consumers are modelled as always accepting (every `yield`
returns true); all claims under scrutiny concern fully consumed
streams.  Go string-typed enums (`FinishReason`, `PartType`,
`ToolInvocationState`) are modelled as `String` with the same literal
values, so that zero values ("" ) behave exactly as in Go.
-/

namespace Aisdk

/-! ## JSON value model

`JVal` models the subset of Go's `any` that carries JSON data:
`nil`, `bool`, numbers (restricted to integers — every concrete value
appearing in the repository's streams and tests is integral), `string`,
`[]any` and `map[string]any`.  Arrays and objects are separate mutual
inductives so that all functions over them are structural and reduce
definitionally. -/

mutual
inductive JVal : Type where
  | null : JVal
  | bool (b : Bool) : JVal
  | num (n : Int) : JVal
  | str (s : String) : JVal
  | arr (elems : JArr) : JVal
  | obj (fields : JObj) : JVal
deriving DecidableEq

inductive JArr : Type where
  | nil : JArr
  | cons (v : JVal) (rest : JArr) : JArr
deriving DecidableEq

inductive JObj : Type where
  | nil : JObj
  | cons (k : String) (v : JVal) (rest : JObj) : JObj
deriving DecidableEq
end

/-- Lookup in a `JObj` (first binding wins, like decoding into a map and
reading the key). -/
def JObj.lookup : JObj → String → Option JVal
  | .nil, _ => none
  | .cons k v rest, key => if k = key then some v else rest.lookup key

/-- The opening brace character, U+007B. -/
def lbrace : Char := Char.ofNat 123

/-- The closing brace character, U+007D. -/
def rbrace : Char := Char.ofNat 125

/-- Lower-case hexadecimal digit, as used by Go's JSON encoder in
`\u00xx` escapes. -/
def hexChar : Nat → Char
  | 0 => '0' | 1 => '1' | 2 => '2' | 3 => '3' | 4 => '4'
  | 5 => '5' | 6 => '6' | 7 => '7' | 8 => '8' | 9 => '9'
  | 10 => 'a' | 11 => 'b' | 12 => 'c' | 13 => 'd' | 14 => 'e'
  | 15 => 'f' | _ => '0'

/-- Decimal digit character. -/
def digitChar (d : Nat) : Char := Char.ofNat (48 + d)

/-- Little-endian decimal digits of `n`, with explicit fuel (the fuel
`n` itself always suffices). -/
def natDigitsAux : Nat → Nat → List Nat
  | 0, _ => []
  | fuel + 1, n => if n = 0 then [] else n % 10 :: natDigitsAux fuel (n / 10)

/-- Decimal representation of a natural number, most significant digit
first. -/
def natChars (n : Nat) : List Char :=
  if n = 0 then ['0'] else ((natDigitsAux n n).reverse.map digitChar)

/-- Decimal representation of an integer, as Go's JSON encoder prints
integral values. -/
def intChars (i : Int) : List Char :=
  if i < 0 then '-' :: natChars i.natAbs else natChars i.natAbs

/-- Escaping of a single character exactly as Go's json encoder does
with HTML escaping on (the default used by json.Marshal): quote,
backslash and the control characters NL CR TAB get two-character
escapes; other control characters, the HTML-sensitive characters and
the line separators U+2028/U+2029 become backslash-u escapes;
everything else is emitted verbatim. -/
def escChar (c : Char) : List Char :=
  if c = '"' then ['\\', '"']
  else if c = '\\' then ['\\', '\\']
  else if c = '\n' then ['\\', 'n']
  else if c = '\r' then ['\\', 'r']
  else if c = '\t' then ['\\', 't']
  else if c = '<' then ['\\', 'u', '0', '0', '3', 'c']
  else if c = '>' then ['\\', 'u', '0', '0', '3', 'e']
  else if c = '&' then ['\\', 'u', '0', '0', '2', '6']
  else if c.toNat < 32 then ['\\', 'u', '0', '0', hexChar (c.toNat / 16), hexChar (c.toNat % 16)]
  else if c.toNat = 0x2028 then ['\\', 'u', '2', '0', '2', '8']
  else if c.toNat = 0x2029 then ['\\', 'u', '2', '0', '2', '9']
  else [c]

/-- Escape every character of a list. -/
def escList : List Char → List Char
  | [] => []
  | c :: rest => escChar c ++ escList rest

/-- JSON string literal for `s`, including the surrounding quotes. -/
def jserStrChars (s : String) : List Char :=
  '"' :: escList s.data ++ ['"']

mutual
/-- Serialization of a `JVal`, character for character what Go's
`json.Marshal` produces (fields/elements in list order; the `Go map
sorts its keys` canonicalization is reflected by the order of the
`JObj` list itself). -/
def jserChars : JVal → List Char
  | .num n => intChars n
  | .null => ['n', 'u', 'l', 'l']
  | .str s => jserStrChars s
  | .bool true => ['t', 'r', 'u', 'e']
  | .arr a => '[' :: jserArrTail a
  | .bool false => ['f', 'a', 'l', 's', 'e']
  | .obj o => lbrace :: jserObjTail o

/-- Elements of an array followed by the closing bracket (first
element, no leading comma). -/
def jserArrTail : JArr → List Char
  | .nil => [']']
  | .cons v rest => jserChars v ++ jserArrMore rest

/-- Remaining elements of an array, each preceded by a comma, followed
by the closing bracket. -/
def jserArrMore : JArr → List Char
  | .nil => [']']
  | .cons v rest => ',' :: (jserChars v ++ jserArrMore rest)

/-- Fields of an object followed by the closing brace (first field, no
leading comma). -/
def jserObjTail : JObj → List Char
  | .nil => [rbrace]
  | .cons k v rest => jserStrChars k ++ ':' :: (jserChars v ++ jserObjMore rest)

/-- Remaining fields of an object, each preceded by a comma, followed
by the closing brace. -/
def jserObjMore : JObj → List Char
  | .nil => [rbrace]
  | .cons k v rest => ',' :: (jserStrChars k ++ ':' :: (jserChars v ++ jserObjMore rest))
end

/-- `json.Marshal` of a `JVal`, as a string. -/
def jserString (v : JVal) : String := String.mk (jserChars v)


/-! ## JSON parser

A parser inverse to the serializer above, mirroring what
`encoding/json.Unmarshal` accepts on the canonical (whitespace-free)
encodings that this repository produces and consumes.  The parser is
given explicit fuel; `2 * length + 1` always suffices (proved below).
Numbers are restricted to the integral subset matching `JVal.num`. -/

/-- Decimal digit test. -/
def isDigitCh (c : Char) : Bool := 48 ≤ c.toNat && c.toNat ≤ 57

/-- Value of a decimal digit character. -/
def digitVal (c : Char) : Nat := c.toNat - 48

/-- Split a leading run of decimal digits from the input. -/
def splitDigits : List Char → List Char × List Char
  | [] => ([], [])
  | c :: rest =>
    if isDigitCh c then
      let p := splitDigits rest
      (c :: p.1, p.2)
    else ([], c :: rest)

/-- Numeric value of a big-endian digit run. -/
def digitsToNat (ds : List Char) : Nat :=
  ds.foldl (fun acc c => acc * 10 + digitVal c) 0

/-- Value of a hexadecimal digit character (either case). -/
def hexVal (c : Char) : Option Nat :=
  if 48 ≤ c.toNat ∧ c.toNat ≤ 57 then some (c.toNat - 48)
  else if 97 ≤ c.toNat ∧ c.toNat ≤ 102 then some (c.toNat - 87)
  else if 65 ≤ c.toNat ∧ c.toNat ≤ 70 then some (c.toNat - 55)
  else none

/-- Value of a four-digit hexadecimal escape. -/
def hex4 (h1 h2 h3 h4 : Char) : Option Nat :=
  match hexVal h1, hexVal h2, hexVal h3, hexVal h4 with
  | some a, some b, some c, some d => some (((a * 16 + b) * 16 + c) * 16 + d)
  | _, _, _, _ => none

/-- Parse the body of a JSON string literal (the opening quote has
already been consumed); returns the decoded characters and the input
after the closing quote.  Raw control characters are rejected, exactly
as Go's decoder rejects them. -/
def parseStrChars : List Char → Option (List Char × List Char)
  | [] => none
  | c :: rest =>
    if c = '"' then some ([], rest)
    else if c = '\\' then
      match rest with
      | [] => none
      | e :: rest2 =>
        if e = 'u' then
          match rest2 with
          | h1 :: h2 :: h3 :: h4 :: rest3 =>
            match hex4 h1 h2 h3 h4 with
            | some n =>
              (parseStrChars rest3).map (fun p => (Char.ofNat n :: p.1, p.2))
            | none => none
          | _ => none
        else if e = '"' then (parseStrChars rest2).map (fun p => ('"' :: p.1, p.2))
        else if e = '\\' then (parseStrChars rest2).map (fun p => ('\\' :: p.1, p.2))
        else if e = '/' then (parseStrChars rest2).map (fun p => ('/' :: p.1, p.2))
        else if e = 'n' then (parseStrChars rest2).map (fun p => ('\n' :: p.1, p.2))
        else if e = 'r' then (parseStrChars rest2).map (fun p => ('\r' :: p.1, p.2))
        else if e = 't' then (parseStrChars rest2).map (fun p => ('\t' :: p.1, p.2))
        else if e = 'b' then (parseStrChars rest2).map (fun p => (Char.ofNat 8 :: p.1, p.2))
        else if e = 'f' then (parseStrChars rest2).map (fun p => (Char.ofNat 12 :: p.1, p.2))
        else none
    else if c.toNat < 32 then none
    else (parseStrChars rest).map (fun p => (c :: p.1, p.2))

mutual
/-- Parse one JSON value. -/
def parseJVal : Nat → List Char → Option (JVal × List Char)
  | 0, _ => none
  | _ + 1, [] => none
  | fuel + 1, c :: rest =>
    if c = 'n' then
      match rest with
      | 'u' :: 'l' :: 'l' :: r => some (.null, r)
      | _ => none
    else if c = 't' then
      match rest with
      | 'r' :: 'u' :: 'e' :: r => some (.bool true, r)
      | _ => none
    else if c = 'f' then
      match rest with
      | 'a' :: 'l' :: 's' :: 'e' :: r => some (.bool false, r)
      | _ => none
    else if c = '"' then
      (parseStrChars rest).map (fun p => (.str (String.mk p.1), p.2))
    else if c = '[' then
      match parseArrRest fuel rest with
      | some (a, r) => some (.arr a, r)
      | none => none
    else if c = lbrace then
      match parseObjRest fuel rest with
      | some (o, r) => some (.obj o, r)
      | none => none
    else if c = '-' then
      match splitDigits rest with
      | ([], _) => none
      | (ds, r) => some (.num (-(digitsToNat ds : Int)), r)
    else if isDigitCh c then
      match splitDigits rest with
      | (ds, r) => some (.num ((digitsToNat (c :: ds) : Int)), r)
    else none

/-- Parse array elements right after the opening bracket. -/
def parseArrRest : Nat → List Char → Option (JArr × List Char)
  | 0, _ => none
  | fuel + 1, cs =>
    match cs with
    | [] => none
    | c :: r =>
      if c = ']' then some (.nil, r)
      else
        match parseJVal fuel (c :: r) with
        | some (v, r1) =>
          match parseArrMore fuel r1 with
          | some (a, r2) => some (.cons v a, r2)
          | none => none
        | none => none

/-- Parse array continuation after an element: comma and another
element, or the closing bracket. -/
def parseArrMore : Nat → List Char → Option (JArr × List Char)
  | 0, _ => none
  | fuel + 1, cs =>
    match cs with
    | [] => none
    | c :: r =>
      if c = ']' then some (.nil, r)
      else if c = ',' then
        match parseJVal fuel r with
        | some (v, r1) =>
          match parseArrMore fuel r1 with
          | some (a, r2) => some (.cons v a, r2)
          | none => none
        | none => none
      else none

/-- Parse object fields right after the opening brace. -/
def parseObjRest : Nat → List Char → Option (JObj × List Char)
  | 0, _ => none
  | fuel + 1, cs =>
    match cs with
    | [] => none
    | c :: r =>
      if c = rbrace then some (.nil, r)
      else if c = '"' then
        match parseStrChars r with
        | some (k, r1) =>
          match r1 with
          | ':' :: r2 =>
            match parseJVal fuel r2 with
            | some (v, r3) =>
              match parseObjMore fuel r3 with
              | some (o, r4) => some (.cons (String.mk k) v o, r4)
              | none => none
            | none => none
          | _ => none
        | none => none
      else none

/-- Parse object continuation after a field: comma and another field,
or the closing brace. -/
def parseObjMore : Nat → List Char → Option (JObj × List Char)
  | 0, _ => none
  | fuel + 1, cs =>
    match cs with
    | [] => none
    | c :: r =>
      if c = rbrace then some (.nil, r)
      else if c = ',' then
        match r with
        | '"' :: r0 =>
          match parseStrChars r0 with
          | some (k, r1) =>
            match r1 with
            | ':' :: r2 =>
              match parseJVal fuel r2 with
              | some (v, r3) =>
                match parseObjMore fuel r3 with
                | some (o, r4) => some (.cons (String.mk k) v o, r4)
                | none => none
              | none => none
            | _ => none
          | none => none
        | _ => none
      else none
end

/-- Parse a complete JSON document: the whole input must be consumed. -/
def parseJValFull (s : String) : Option JVal :=
  match parseJVal (2 * s.data.length + 1) s.data with
  | some (v, []) => some v
  | _ => none

/-- Go's `json.Unmarshal` into a `map[string]any` target: succeeds iff
the input is a JSON object or JSON null (unmarshalling `null` into a
map succeeds and leaves the map nil; the nil map is conflated with the
empty object here). -/
def unmarshalObj (s : String) : Option JObj :=
  match parseJValFull s with
  | some (.obj o) => some o
  | some .null => some .nil
  | _ => none

/-! ## Base64 (encoding/base64.StdEncoding)

Go's JSON encoder marshals `[]byte` as a standard-alphabet padded
base64 string.  Bytes are modelled as `Nat` with a well-formedness
bound of 256. -/

/-- Character of a base64 sextet (standard alphabet). -/
def b64Char (n : Nat) : Char :=
  if n < 26 then Char.ofNat (65 + n)
  else if n < 52 then Char.ofNat (97 + (n - 26))
  else if n < 62 then Char.ofNat (48 + (n - 52))
  else if n = 62 then '+'
  else '/'

/-- Sextet value of a base64 character. -/
def b64Val (c : Char) : Option Nat :=
  if 65 ≤ c.toNat ∧ c.toNat ≤ 90 then some (c.toNat - 65)
  else if 97 ≤ c.toNat ∧ c.toNat ≤ 122 then some (c.toNat - 97 + 26)
  else if 48 ≤ c.toNat ∧ c.toNat ≤ 57 then some (c.toNat - 48 + 52)
  else if c = '+' then some 62
  else if c = '/' then some 63
  else none

/-- Standard padded base64 encoding of a byte list. -/
def b64EncodeList : List Nat → List Char
  | [] => []
  | [b1] => [b64Char (b1 / 4), b64Char (b1 % 4 * 16), '=', '=']
  | [b1, b2] => [b64Char (b1 / 4), b64Char (b1 % 4 * 16 + b2 / 16), b64Char (b2 % 16 * 4), '=']
  | b1 :: b2 :: b3 :: rest =>
    b64Char (b1 / 4) :: b64Char (b1 % 4 * 16 + b2 / 16) ::
      b64Char (b2 % 16 * 4 + b3 / 64) :: b64Char (b3 % 64) :: b64EncodeList rest

/-- Standard padded base64 decoding (padding characters are only legal
in the final quadruple, as with Go's strict decoder). -/
def b64DecodeList : List Char → Option (List Nat)
  | [] => some []
  | c1 :: c2 :: c3 :: c4 :: rest =>
    match b64Val c1, b64Val c2 with
    | some s1, some s2 =>
      if c3 = '=' then
        if c4 = '=' ∧ rest = [] then some [s1 * 4 + s2 / 16] else none
      else
        match b64Val c3 with
        | some s3 =>
          if c4 = '=' then
            if rest = [] then some [s1 * 4 + s2 / 16, s2 % 16 * 16 + s3 / 4] else none
          else
            match b64Val c4 with
            | some s4 =>
              (b64DecodeList rest).map
                (fun bs => (s1 * 4 + s2 / 16) :: (s2 % 16 * 16 + s3 / 4) :: (s3 % 4 * 64 + s4) :: bs)
            | none => none
        | none => none
    | _, _ => none
  | _ => none


/-! ## Data Stream part model

`DataStreamPart` mirrors the closed set of part structs in the source
(`TextStreamPart` … `FinishMessageStreamPart`), one constructor per
struct, fields in declaration order.  `FinishReason` is a Go string
type and is modelled as `String` (its zero value is the empty
string). -/

/-- Conversion of a `JArr` to a Lean list of values. -/
def JArr.toList : JArr → List JVal
  | .nil => []
  | .cons v rest => v :: rest.toList

/-- Token usage (`Usage`), with Go's `*int64` fields as `Option Int`. -/
structure Usage where
  promptTokens : Option Int := none
  completionTokens : Option Int := none
deriving DecidableEq

/-- The Data Stream part sum type.  The constructors carrying a `JArr`
are the `'2'` data part and the `'8'` message-annotation part, whose Go
structs hold a `[]any` that `Format` marshals directly. -/
inductive DataStreamPart : Type where
  | text (content : String)
  | reasoning (content : String)
  | redactedReasoning (data : String)
  | reasoningSignature (signature : String)
  | source (sourceType id url title : String)
  | file (data : List Nat) (mimeType : String)
  | streamData (content : JArr)
  | messageAnnotations (content : JArr)
  | error (content : String)
  | toolCallStart (toolCallId toolName : String)
  | toolCallDelta (toolCallId argsTextDelta : String)
  | toolCall (toolCallId toolName : String) (args : JObj)
  | toolResult (toolCallId : String) (result : JVal)
  | startStep (messageId : String)
  | finishStep (finishReason : String) (usage : Usage) (isContinued : Bool)
  | finishMessage (finishReason : String) (usage : Usage)
deriving DecidableEq

/-- The single-byte wire tag of each part (`TypeID`). -/
def DataStreamPart.TypeID : DataStreamPart → Char
  | .text _ => '0'
  | .reasoning _ => 'g'
  | .redactedReasoning _ => 'i'
  | .reasoningSignature _ => 'j'
  | .source _ _ _ _ => 'h'
  | .file _ _ => 'k'
  | .streamData _ => '2'
  | .messageAnnotations _ => '8'
  | .error _ => '3'
  | .toolCallStart _ _ => 'b'
  | .toolCallDelta _ _ => 'c'
  | .toolCall _ _ _ => '9'
  | .toolResult _ _ => 'a'
  | .startStep _ => 'f'
  | .finishStep _ _ _ => 'e'
  | .finishMessage _ _ => 'd'

/-- JSON image of a `Usage` value (struct fields in declaration order,
nil pointers as JSON null). -/
def usageJVal (u : Usage) : JVal :=
  .obj (.cons "promptTokens" (match u.promptTokens with | none => .null | some n => .num n)
    (.cons "completionTokens" (match u.completionTokens with | none => .null | some n => .num n) .nil))

/-- The JSON value each part's `Format` marshals: for the text-valued
tags `0`, `g`, `3` the payload string itself; for every other tag the
whole struct, fields in declaration order with their json tags,
`[]byte` encoded as standard base64. -/
def DataStreamPart.payloadJVal : DataStreamPart → JVal
  | .text s => .str s
  | .reasoning s => .str s
  | .redactedReasoning d => .obj (.cons "data" (.str d) .nil)
  | .reasoningSignature sg => .obj (.cons "signature" (.str sg) .nil)
  | .source st id url title =>
    .obj (.cons "sourceType" (.str st) (.cons "id" (.str id)
      (.cons "url" (.str url) (.cons "title" (.str title) .nil))))
  | .file d mt =>
    .obj (.cons "data" (.str (String.mk (b64EncodeList d))) (.cons "mimeType" (.str mt) .nil))
  | .streamData a => .arr a
  | .messageAnnotations a => .arr a
  | .error s => .str s
  | .toolCallStart id name =>
    .obj (.cons "toolCallId" (.str id) (.cons "toolName" (.str name) .nil))
  | .toolCallDelta id d =>
    .obj (.cons "toolCallId" (.str id) (.cons "argsTextDelta" (.str d) .nil))
  | .toolCall id name args =>
    .obj (.cons "toolCallId" (.str id) (.cons "toolName" (.str name)
      (.cons "args" (.obj args) .nil)))
  | .toolResult id r =>
    .obj (.cons "toolCallId" (.str id) (.cons "result" r .nil))
  | .startStep mid => .obj (.cons "messageId" (.str mid) .nil)
  | .finishStep r u cont =>
    .obj (.cons "finishReason" (.str r) (.cons "usage" (usageJVal u)
      (.cons "isContinued" (.bool cont) .nil)))
  | .finishMessage r u =>
    .obj (.cons "finishReason" (.str r) (.cons "usage" (usageJVal u) .nil))

/-- `Format`: one line `TAG:JSON` terminated by a single newline.  (The
Go method returns an error only when `json.Marshal` fails, which cannot
happen on the modelled payload domain.) -/
def DataStreamPart.Format (p : DataStreamPart) : String :=
  String.mk (p.TypeID :: ':' :: (jserChars p.payloadJVal ++ ['\n']))

/-! ## Accumulator

`DataStreamAccumulator` and `Push`, from the source.  The Go field
`wipToolCalls map[string]*Part` stores pointers into
`currentMessage.Parts`; since parts are only appended while a message
is in progress, a pointer is modelled as the index of the part it
points to, and the map as an association list with at most one entry
per key (Go map insert = upsert).  Go's `Part`, `Message`,
`ToolInvocation` structs are carried over field by field;
`ToolInvocation.Args` is `any` in Go — a string buffer or a decoded
map — and is a `JVal` here (`.str` or `.obj`). -/

/-- Reasoning detail entry (unused by `Push` but part of `Part`). -/
structure ReasoningDetail where
  type : String := ""
  text : String := ""
  signature : String := ""
  data : String := ""
deriving DecidableEq

/-- `SourceInfo`. -/
structure SourceInfo where
  uri : String := ""
  contentType : String := ""
  data : String := ""
  metadata : JObj := .nil
deriving DecidableEq

/-- `ToolInvocation`; `state` is one of "partial-call", "call",
"result". -/
structure ToolInvocation where
  state : String
  step : Option Int := none
  toolCallId : String
  toolName : String
  args : JVal
  result : Option JVal := none
deriving DecidableEq

/-- `Part`; `type` is one of "text", "reasoning", "tool-invocation",
"source", "file", "step-start". -/
structure Part where
  type : String := ""
  text : String := ""
  reasoning : String := ""
  details : List ReasoningDetail := []
  toolInvocation : Option ToolInvocation := none
  source : Option SourceInfo := none
  mimeType : String := ""
  data : List Nat := []
  isComplete : Bool := false
deriving DecidableEq

/-- `Attachment`. -/
structure Attachment where
  name : String := ""
  contentType : String := ""
  url : String := ""
deriving DecidableEq

/-- `Message`. -/
structure Message where
  id : String := ""
  createdAt : Option JVal := none
  content : String := ""
  role : String := ""
  parts : List Part := []
  annotations : List JVal := []
  attachments : List Attachment := []
deriving DecidableEq

/-- `DataStreamAccumulator`. -/
structure DataStreamAccumulator where
  messages : List Message := []
  currentMessage : Option Message := none
  wipToolCalls : List (String × Nat) := []
  finishReason : String := ""
  usage : Usage := {}
deriving DecidableEq

/-- Go map insert: replace the existing binding or append a new one. -/
def assocUpsert {κ α : Type} [DecidableEq κ] : List (κ × α) → κ → α → List (κ × α)
  | [], k, v => [(k, v)]
  | (k1, v1) :: rest, k, v =>
    if k1 = k then (k, v) :: rest else (k1, v1) :: assocUpsert rest k v

/-- Go map lookup. -/
def assocLookup {κ α : Type} [DecidableEq κ] : List (κ × α) → κ → Option α
  | [], _ => none
  | (k1, v1) :: rest, k => if k1 = k then some v1 else assocLookup rest k

/-- Go map delete. -/
def assocErase {κ α : Type} [DecidableEq κ] : List (κ × α) → κ → List (κ × α)
  | [], _ => []
  | (k1, v1) :: rest, k =>
    if k1 = k then rest else (k1, v1) :: assocErase rest k

/-- In-place mutation of the part a pointer refers to: replace the
element at the pointed-to index. -/
def modifyPart : List Part → Nat → (Part → Part) → List Part
  | [], _, _ => []
  | p :: rest, 0, f => f p :: rest
  | p :: rest, i + 1, f => p :: modifyPart rest i f

/-- `findPart`: index of the first part that is a tool invocation with
the given id (`Type == PartTypeToolInvocation && ToolInvocation != nil
&& ToolCallID == id`). -/
def findToolPartIdx : List Part → String → Option Nat
  | [], _ => none
  | p :: rest, id =>
    if p.type == "tool-invocation" &&
        (match p.toolInvocation with
         | some inv => inv.toolCallId == id
         | none => false) then
      some 0
    else (findToolPartIdx rest id).map (· + 1)

/-- Index of the message's unique reasoning part, if any. -/
def findReasoningIdx : List Part → Option Nat
  | [] => none
  | p :: rest =>
    if p.type = "reasoning" then some 0
    else (findReasoningIdx rest).map (· + 1)

/-- `ensureCurrentMessage`. -/
def DataStreamAccumulator.ensureCurrentMessage (a : DataStreamAccumulator) : DataStreamAccumulator :=
  match a.currentMessage with
  | some _ => a
  | none =>
    { a with
      currentMessage := some { role := "assistant", parts := [] }
      wipToolCalls := [] }

/-- The per-entry body of the finish-step / finish-message cleanup loop
over the WIP tool-call map: when the part is not yet complete and holds
an invocation, try to JSON-decode a non-empty string `args` buffer and
promote the invocation to state "call"; mark the part complete either
way. -/
def promoteWipPart (p : Part) : Part :=
  if p.isComplete then p
  else
    match p.toolInvocation with
    | none => p
    | some inv =>
      let p1 :=
        match inv.args with
        | .str s =>
          if s ≠ "" then
            match unmarshalObj s with
            | some parsed =>
              { p with toolInvocation := some { inv with args := .obj parsed, state := "call" } }
            | none => p
          else p
        | _ => p
      { p1 with isComplete := true }

/-- The cleanup loop itself.  Go iterates the map in unspecified order;
distinct keys always point at distinct part indices (each
`tool-call-start` appends a fresh part), so any order yields the same
part list — the model iterates in list order. -/
def promoteWipList : List (String × Nat) → List Part → List Part
  | [], parts => parts
  | (_, idx) :: rest, parts => promoteWipList rest (modifyPart parts idx promoteWipPart)

/-- `DataStreamAccumulator.Push`.  Returns the updated accumulator and
the returned error, if any (Go error strings carried over).  State
mutations that happen before an error return are preserved, exactly as
with the Go method on a pointer receiver. -/
def DataStreamAccumulator.Push (a0 : DataStreamAccumulator) (part : DataStreamPart) :
    DataStreamAccumulator × Option String :=
  let a :=
    match part with
    | .finishMessage _ _ => a0
    | _ => a0.ensureCurrentMessage
  match part with
  | .text s =>
    match a.currentMessage with
    | none => (a, some "cannot add TextStreamPart without an active message")
    | some m =>
      let parts' :=
        match m.parts.getLast? with
        | some lastP =>
          if lastP.type = "text" then
            m.parts.dropLast ++ [{ lastP with text := lastP.text ++ s }]
          else m.parts ++ [{ type := "text", text := s }]
        | none => m.parts ++ [{ type := "text", text := s }]
      ({ a with currentMessage := some { m with content := m.content ++ s, parts := parts' } }, none)
  | .reasoning s =>
    match a.currentMessage with
    | none => (a, some "cannot add ReasoningStreamPart without an active message")
    | some m =>
      let parts' :=
        match findReasoningIdx m.parts with
        | some i => modifyPart m.parts i (fun p => { p with reasoning := p.reasoning ++ s })
        | none => m.parts ++ [{ type := "reasoning", reasoning := s }]
      ({ a with currentMessage := some { m with parts := parts' } }, none)
  | .file d mt =>
    match a.currentMessage with
    | none => (a, some "cannot add FileStreamPart without an active message")
    | some m =>
      let m' := { m with parts := m.parts ++ [{ type := "file", mimeType := mt, data := d }] }
      ({ a with currentMessage := some m' }, none)
  | .source st id url title =>
    match a.currentMessage with
    | none => (a, some "cannot add SourceStreamPart without an active message")
    | some m =>
      let sp : Part :=
        { type := "source"
          source := some
            { uri := url, contentType := "", data := "",
              metadata := .cons "id" (.str id) (.cons "title" (.str title)
                (.cons "sourceType" (.str st) .nil)) } }
      ({ a with currentMessage := some { m with parts := m.parts ++ [sp] } }, none)
  | .startStep mid =>
    match a.currentMessage with
    | none => (a, some "StartStepStreamPart received before message initialization")
    | some m =>
      let m1 := if m.id = "" then { m with id := mid } else m
      ({ a with currentMessage := some { m1 with parts := m1.parts ++ [{ type := "step-start" }] } }, none)
  | .toolCallStart id name =>
    match a.currentMessage with
    | none => (a, some "cannot add ToolCallStartStreamPart without an active message")
    | some m =>
      let newPart : Part :=
        { type := "tool-invocation"
          toolInvocation := some
            { state := "partial-call", toolCallId := id, toolName := name, args := .str "" }
          isComplete := false }
      let parts' := m.parts ++ [newPart]
      ({ a with
          currentMessage := some { m with parts := parts' }
          wipToolCalls := assocUpsert a.wipToolCalls id (parts'.length - 1) }, none)
  | .toolCallDelta id d =>
    match a.currentMessage with
    | none => (a, some "cannot add ToolCallDeltaStreamPart without an active message")
    | some m =>
      match assocLookup a.wipToolCalls id with
      | none => (a, none)
      | some idx =>
        match m.parts.get? idx with
        | none => (a, none)
        | some p =>
          match p.toolInvocation with
          | none => (a, none)
          | some inv =>
            match inv.args with
            | .str sArgs =>
              let parts' := modifyPart m.parts idx
                (fun q =>
                  match q.toolInvocation with
                  | some qi => { q with toolInvocation := some { qi with args := .str (sArgs ++ d) } }
                  | none => q)
              ({ a with currentMessage := some { m with parts := parts' } }, none)
            | _ => (a, some ("tool call delta received for non-string args (ID: " ++ id ++ ")"))
  | .toolCall id name args =>
    match a.currentMessage with
    | none => (a, some "cannot add ToolCallStreamPart without an active message")
    | some m =>
      let parts' :=
        match findToolPartIdx m.parts id with
        | some i =>
          modifyPart m.parts i
            (fun p =>
              match p.toolInvocation with
              | some inv =>
                { p with
                  toolInvocation := some { inv with toolName := name, args := .obj args, state := "call" }
                  isComplete := true }
              | none => p)
        | none =>
          m.parts ++
            [{ type := "tool-invocation"
               toolInvocation := some
                 { state := "call", toolCallId := id, toolName := name, args := .obj args }
               isComplete := true }]
      ({ a with
          currentMessage := some { m with parts := parts' }
          wipToolCalls := assocErase a.wipToolCalls id }, none)
  | .toolResult id r =>
    match a.currentMessage with
    | none => (a, some "cannot add ToolResultStreamPart without an active message")
    | some m =>
      match findToolPartIdx m.parts id with
      | some i =>
        let parts' := modifyPart m.parts i
          (fun p =>
            match p.toolInvocation with
            | some inv => { p with toolInvocation := some { inv with state := "result", result := some r } }
            | none => p)
        ({ a with currentMessage := some { m with parts := parts' } }, none)
      | none => (a, some ("tool result received for unknown tool call ID: " ++ id))
  | .streamData content =>
    match a.currentMessage with
    | none => (a, some "cannot add DataStreamDataPart without an active message")
    | some m =>
      ({ a with currentMessage := some { m with annotations := m.annotations ++ content.toList } }, none)
  | .messageAnnotations content =>
    match a.currentMessage with
    | none => (a, some "cannot add MessageAnnotationStreamPart without an active message")
    | some m =>
      ({ a with currentMessage := some { m with annotations := m.annotations ++ content.toList } }, none)
  | .finishStep r _ cont =>
    match a.currentMessage with
    | some m =>
      let m' := { m with parts := promoteWipList a.wipToolCalls m.parts }
      if cont then
        ({ a with currentMessage := some m', wipToolCalls := [], finishReason := r }, none)
      else
        ({ a with
            messages := a.messages ++ [m']
            currentMessage := none
            wipToolCalls := []
            finishReason := r }, none)
    | none => ({ a with finishReason := r }, none)
  | .finishMessage r u =>
    match a.currentMessage with
    | some m =>
      let m' := { m with parts := promoteWipList a.wipToolCalls m.parts }
      ({ a with
          messages := a.messages ++ [m']
          currentMessage := none
          wipToolCalls := []
          finishReason := r
          usage := u }, none)
    | none =>
      ({ a with currentMessage := none, wipToolCalls := [], finishReason := r, usage := u }, none)
  | .error content =>
    ({ a with finishReason := "error" }, some ("error in stream: " ++ content))
  | .redactedReasoning _ => (a, none)
  | .reasoningSignature _ => (a, none)

/-- Feeding a sequence of parts into an accumulator, keeping the state
across pushes (errors do not reset state; the caller may stop or
continue — the reachable states are the same either way, and the
invariants below hold at every intermediate state). -/
def pushAllFrom (a : DataStreamAccumulator) (ps : List DataStreamPart) : DataStreamAccumulator :=
  ps.foldl (fun acc p => (acc.Push p).1) a

/-- Feeding a sequence of parts into a fresh accumulator. -/
def pushAll (ps : List DataStreamPart) : DataStreamAccumulator :=
  pushAllFrom {} ps


/-! ## Tool-calling middleware

`DataStream.WithToolCalling` from the source, as a transducer over the
list of items an upstream `iter.Seq2[DataStreamPart, error]` yields
(`Sum.inr` is an upstream error).  The downstream consumer is modelled
as always accepting.  Besides the downstream items, the model records
the sequence of handler invocations, which several claims quantify
over.  The handler's polymorphic result is modelled as a `JVal`. -/

/-- A tool call request handed to the handler (`ToolCall`). -/
structure ToolCall where
  id : String
  name : String
  args : JObj
deriving DecidableEq

/-- The per-id buffer entry of the middleware (the anonymous struct
with fields `text`, `step`, `toolName`). -/
structure BufCall where
  text : String := ""
  step : Nat := 0
  toolName : String := ""
deriving DecidableEq

/-- Middleware state: the buffer map and the step counter. -/
structure WTCState where
  buf : List (String × BufCall) := []
  step : Nat := 0
deriving DecidableEq

/-- `processToolCall`: emit a finalized tool-call part, invoke the
handler synchronously, emit the tool-result part carrying its result.
Returns the emitted parts and the recorded invocation. -/
def wtcProcessToolCall (handler : ToolCall → JVal) (id name : String) (args : JObj) :
    List DataStreamPart × List ToolCall :=
  let call : ToolCall := { id := id, name := name, args := args }
  ([.toolCall id name args, .toolResult id (handler call)], [call])

/-- `processDelta`: append the delta to the id's buffer (a missing map
entry reads as the zero value), then try to parse the buffer as a JSON
object; on success process the call and drop the buffer entry. -/
def wtcProcessDelta (handler : ToolCall → JVal) (st : WTCState) (id delta : String) :
    List DataStreamPart × List ToolCall × WTCState :=
  let pc := (assocLookup st.buf id).getD {}
  let pc' := { pc with text := pc.text ++ delta }
  let buf1 := assocUpsert st.buf id pc'
  match unmarshalObj pc'.text with
  | some args =>
    let out := wtcProcessToolCall handler id pc'.toolName args
    (out.1, out.2, { st with buf := assocErase buf1 id })
  | none => ([], [], { st with buf := buf1 })

/-- One upstream part through the middleware: the downstream parts (the
forwarded part first, then any synthesized parts), the handler
invocations, and the next state. -/
def wtcStep (handler : ToolCall → JVal) (st : WTCState) (p : DataStreamPart) :
    List DataStreamPart × List ToolCall × WTCState :=
  match p with
  | .startStep _ => ([p], [], { st with step := st.step + 1 })
  | .toolCallStart id name =>
    ([p], [],
     { st with buf := assocUpsert st.buf id { text := "", step := st.step, toolName := name } })
  | .toolCallDelta id d =>
    let r := wtcProcessDelta handler st id d
    (p :: r.1, r.2.1, r.2.2)
  | .toolCall id name args =>
    let r := wtcProcessToolCall handler id name args
    (p :: r.1, r.2, { st with buf := assocErase st.buf id })
  | .finishStep _ _ _ => ([p], [], { st with buf := [] })
  | _ => ([p], [], st)

/-- The middleware run from a given state. -/
def runWTCFrom (handler : ToolCall → JVal) (st : WTCState) :
    List (DataStreamPart ⊕ String) → List (DataStreamPart ⊕ String) × List ToolCall
  | [] => ([], [])
  | .inr e :: _ => ([.inr e], [])
  | .inl p :: rest =>
    let r := wtcStep handler st p
    let next := runWTCFrom handler r.2.2 rest
    (r.1.map Sum.inl ++ next.1, r.2.1 ++ next.2)

/-- `WithToolCalling` on a fresh middleware. -/
def runWithToolCalling (handler : ToolCall → JVal)
    (upstream : List (DataStreamPart ⊕ String)) :
    List (DataStreamPart ⊕ String) × List ToolCall :=
  runWTCFrom handler {} upstream

/-! ## Anthropic adapters

The vendor SDK's message stream events, as a closed inductive (the SDK
event union is external; only the fields the adapters read are
modelled).  A stream is the list of events it yields plus an optional
terminal error (`stream.Err()`). -/

/-- Content block payload of a `content_block_start` event. -/
inductive AnthBlock : Type where
  | toolUse (id name : String)
  | otherBlock
deriving DecidableEq

/-- Delta payload of a `content_block_delta` event. -/
inductive AnthDelta : Type where
  | textDelta (text : String)
  | inputJSONDelta (jsonText : String)
  | thinkingDelta (thinking : String)
  | otherDelta
deriving DecidableEq

/-- Anthropic message stream events.  `messageDelta` carries the
delta's stop reason (empty when absent) and the delta usage's output
token count (0 when absent), which are the only fields the adapters
read. -/
inductive AnthEvent : Type where
  | messageStart (id : String)
  | contentBlockStart (index : Nat) (block : AnthBlock)
  | contentBlockDelta (index : Nat) (delta : AnthDelta)
  | contentBlockStop (index : Nat)
  | messageDelta (stopReason : String) (outputTokens : Int)
  | messageStop
  | ping
deriving DecidableEq

/-- Loop state of `AnthropicToDataStream`. -/
structure AnthState where
  finalReason : String := "unknown"
  finalUsage : Usage := {}
  curToolId : String := ""
  curToolArgs : String := ""
deriving DecidableEq

/-- One event through the `AnthropicToDataStream` loop. -/
def anthStep (st : AnthState) (e : AnthEvent) : List DataStreamPart × AnthState :=
  match e with
  | .messageStart id => ([.startStep id], st)
  | .contentBlockDelta _ (.textDelta t) => ([.text t], st)
  | .contentBlockDelta _ (.inputJSONDelta j) =>
    ([.toolCallDelta st.curToolId j], { st with curToolArgs := st.curToolArgs ++ j })
  | .contentBlockDelta _ (.thinkingDelta t) => ([.reasoning t], st)
  | .contentBlockDelta _ .otherDelta => ([], st)
  | .contentBlockStart _ (.toolUse id name) =>
    ([.toolCallStart id name], { st with curToolId := id, curToolArgs := "" })
  | .contentBlockStart _ .otherBlock => ([], st)
  | .contentBlockStop _ => ([], st)
  | .messageDelta r tok =>
    if r = "tool_use" then
      let u := if tok ≠ 0 then { st.finalUsage with completionTokens := some tok } else st.finalUsage
      ([], { finalReason := "tool-calls", finalUsage := u, curToolId := "", curToolArgs := "" })
    else ([], st)
  | .messageStop =>
    let r := if st.finalReason = "unknown" then "stop" else st.finalReason
    ([.finishStep r st.finalUsage false, .finishMessage r st.finalUsage],
     { st with finalReason := r })
  | .ping => ([], st)

/-- The event loop of `AnthropicToDataStream`. -/
def anthLoop (st : AnthState) : List AnthEvent → List DataStreamPart × AnthState
  | [] => ([], st)
  | e :: rest =>
    let r := anthStep st e
    let next := anthLoop r.2 rest
    (r.1 ++ next.1, next.2)

/-- Whether an event is a `message_stop` (the Go code compares the
union's `Type` string). -/
def isMessageStopEvent : AnthEvent → Bool
  | .messageStop => true
  | _ => false

/-- `AnthropicToDataStream` (file anthropic.go): translate the events;
then, if the stream failed, yield the wrapped error and stop; else, if
the last chunk was not a `message_stop`, emit a trailing
finish-message whose reason defaults to "error" when still unknown. -/
def AnthropicToDataStream (events : List AnthEvent) (streamErr : Option String) :
    List (DataStreamPart ⊕ String) :=
  let r := anthLoop {} events
  let outs : List (DataStreamPart ⊕ String) := r.1.map Sum.inl
  match streamErr with
  | some e => outs ++ [Sum.inr ("anthropic stream error: " ++ e)]
  | none =>
    let lastIsStop :=
      match events.getLast? with
      | some last => isMessageStopEvent last
      | none => false
    if lastIsStop then outs
    else
      let fr := if r.2.finalReason = "unknown" then "error" else r.2.finalReason
      outs ++ [Sum.inl (.finishMessage fr r.2.finalUsage)]

/-- In-progress tool call of `PipeAnthropicToDataStream`
(`wipToolCall`). -/
structure WipTC where
  id : String
  name : String
  args : String := ""
  finished : Bool := false
deriving DecidableEq

/-- State of `PipeAnthropicToDataStream`: the SDK-accumulated message
(only the stop reason and usage, which are the fields the adapter
reads) and the per-index tool-call map. -/
structure PipeAnthState where
  stopReason : String := ""
  usageIn : Option Int := none
  usageOut : Option Int := none
  toolCalls : List (Nat × WipTC) := []
deriving DecidableEq

/-- The SDK's `message.Accumulate`, modelled for the fields the adapter
reads (the SDK is an external dependency): a `message_delta` event
records its non-empty stop reason and its output token count; the
input-token count would come from `message_start` usage, which the
modelled events do not carry, so it stays absent. -/
def anthAccumulate (st : PipeAnthState) (e : AnthEvent) : PipeAnthState :=
  match e with
  | .messageDelta r tok =>
    { st with
      stopReason := if r ≠ "" then r else st.stopReason
      usageOut := some tok }
  | _ => st

/-- One event through the `PipeAnthropicToDataStream` loop: emitted
parts, next state, and whether the loop ends (`message_stop` does a
goto out of the loop). -/
def pipeAnthStep (handler : ToolCall → JVal) (st0 : PipeAnthState) (e : AnthEvent) :
    List DataStreamPart × PipeAnthState × Bool :=
  let st := anthAccumulate st0 e
  match e with
  | .messageStart id => ([.startStep id], st, false)
  | .contentBlockStart idx (.toolUse id name) =>
    match assocLookup st.toolCalls idx with
    | some _ => ([], st, false)
    | none =>
      ([.toolCallStart id name],
       { st with toolCalls := assocUpsert st.toolCalls idx { id := id, name := name, args := "" } },
       false)
  | .contentBlockStart _ .otherBlock => ([], st, false)
  | .contentBlockDelta idx d =>
    match d with
    | .textDelta t => (if t ≠ "" then [.text t] else [], st, false)
    | .inputJSONDelta j =>
      match assocLookup st.toolCalls idx with
      | some wip =>
        if wip.finished then ([], st, false)
        else
          ([.toolCallDelta wip.id j],
           { st with toolCalls := assocUpsert st.toolCalls idx { wip with args := wip.args ++ j } },
           false)
      | none => ([], st, false)
    | .thinkingDelta t => ([.reasoning t], st, false)
    | .otherDelta => ([], st, false)
  | .contentBlockStop idx =>
    match assocLookup st.toolCalls idx with
    | some wip =>
      if wip.finished then ([], st, false)
      else
        let st1 := { st with toolCalls := assocUpsert st.toolCalls idx { wip with finished := true } }
        match unmarshalObj wip.args with
        | none => ([], st1, false)
        | some args =>
          let result := handler { id := wip.id, name := wip.name, args := args }
          ([.toolCall wip.id wip.name args, .toolResult wip.id result], st1, false)
    | none => ([], st, false)
  | .messageDelta r _ =>
    if r ≠ "" then
      let stepReason :=
        if r = "end_turn" ∨ r = "stop_sequence" then "stop"
        else if r = "max_tokens" then "length"
        else if r = "tool_use" then "tool-calls"
        else "other"
      ([.finishStep stepReason { promptTokens := st.usageIn, completionTokens := st.usageOut } false],
       st, false)
    else ([], st, false)
  | .messageStop => ([], st, true)
  | .ping => ([], st, false)

/-- The event loop of `PipeAnthropicToDataStream` (stops at
`message_stop`). -/
def pipeAnthLoop (handler : ToolCall → JVal) (st : PipeAnthState) :
    List AnthEvent → List DataStreamPart × PipeAnthState
  | [] => ([], st)
  | e :: rest =>
    let r := pipeAnthStep handler st e
    if r.2.2 then (r.1, r.2.1)
    else
      let next := pipeAnthLoop handler r.2.1 rest
      (r.1 ++ next.1, next.2)

/-- `PipeAnthropicToDataStream` (the older piping adapter): the data
stream writes it performs.  The returned `PipeResponse` (provider
message accumulation via the SDK's `ToParam`) is outside the scope of
the claims and is not modelled. -/
def PipeAnthropicToDataStream (handler : ToolCall → JVal) (events : List AnthEvent)
    (streamErr : Option String) : List DataStreamPart :=
  let r := pipeAnthLoop handler {} events
  let st := r.2
  let finalReason :=
    if st.stopReason = "end_turn" ∨ st.stopReason = "stop_sequence" then "stop"
    else if st.stopReason = "max_tokens" then "length"
    else if st.stopReason = "tool_use" then "tool-calls"
    else
      match streamErr with
      | some _ => "error"
      | none => if st.stopReason ≠ "" then "other" else "stop"
  r.1 ++ [.finishMessage finalReason { promptTokens := st.usageIn, completionTokens := st.usageOut }]

/-! ## Google adapter

`GoogleToDataStream` (file google.go).  The `genai` response types are
modelled with exactly the fields the adapter reads;
`genai.FinishReason` is a string type whose constants are the
upper-case wire values.  `uuid.New()` is modelled as a deterministic
fresh-name supply (the adapter only requires freshness). -/

/-- `genai.FunctionCall`. -/
structure GFuncCall where
  name : String
  args : JObj
deriving DecidableEq

/-- `genai.Part` (content part). -/
structure GPart where
  text : String := ""
  thought : Bool := false
  functionCall : Option GFuncCall := none
deriving DecidableEq

/-- `genai.Content`. -/
structure GContent where
  parts : List GPart := []
deriving DecidableEq

/-- `genai.GenerateContentResponseUsageMetadata` (with `*int32` token
counts as `Option Int`). -/
structure GUsage where
  promptTokenCount : Option Int := none
  candidatesTokenCount : Option Int := none
deriving DecidableEq

/-- `genai.Candidate`. -/
structure GCandidate where
  content : Option GContent := none
  finishReason : String := ""
deriving DecidableEq

/-- `genai.GenerateContentResponse`. -/
structure GenResp where
  candidates : List GCandidate := []
  usageMetadata : Option GUsage := none
deriving DecidableEq

/-- One item yielded by the vendor stream iterator: a response, a nil
response (skipped by the adapter), or an error. -/
inductive GItem : Type where
  | resp (r : GenResp)
  | nilResp
  | err (e : String)
deriving DecidableEq

/-- Deterministic model of `uuid.New().String()`. -/
def uuidStr (n : Nat) : String := "uuid-" ++ String.mk (natChars n)

/-- Loop state of `GoogleToDataStream`. -/
structure GoogleState where
  finalReason : String := "unknown"
  isNewSeg : Bool := true
  lastResp : Option GenResp := none
  ctr : Nat := 0
deriving DecidableEq

/-- The inner loop over one response's content parts.  For a
`functionCall` part the source synthesizes an id, emits the start part,
marshals the args and — `json.Marshal` of the modelled argument domain
never failing — takes the `err == nil` branch, which emits the delta
part, then emits an `ErrorStreamPart` whose message claims the marshal
failed (formatting the nil error), and `continue`s, skipping the
`finalReason = FinishReasonToolCalls` assignment that sits after the
branch; that assignment is reachable only when the marshal fails.
Returns the emitted parts, the next fresh-id counter and the final
reason. -/
def googleHandleParts : List GPart → Nat → String → List DataStreamPart × Nat × String
  | [], ctr, finalReason => ([], ctr, finalReason)
  | p :: rest, ctr, finalReason =>
    match p.functionCall with
    | some fc =>
      let toolCallID := uuidStr ctr
      let marshalled : Option String := some (jserString (.obj fc.args))
      match marshalled with
      | some argsJSON =>
        let out := [DataStreamPart.toolCallStart toolCallID fc.name,
                    DataStreamPart.toolCallDelta toolCallID argsJSON,
                    DataStreamPart.error
                      ("failed to marshal function call args for " ++ fc.name ++ ": %!s(<nil>)")]
        let next := googleHandleParts rest (ctr + 1) finalReason
        (out ++ next.1, next.2.1, next.2.2)
      | none =>
        let next := googleHandleParts rest (ctr + 1) "tool-calls"
        (DataStreamPart.toolCallStart toolCallID fc.name :: next.1, next.2.1, next.2.2)
    | none =>
      if p.text ≠ "" then
        let out := if p.thought then [DataStreamPart.reasoning p.text]
          else [DataStreamPart.text p.text]
        let next := googleHandleParts rest ctr finalReason
        (out ++ next.1, next.2.1, next.2.2)
      else
        googleHandleParts rest ctr finalReason

/-- The main loop of `GoogleToDataStream`; the Bool is true when the
loop aborted on a stream error (in which case no finish parts
follow). -/
def googleLoop : List GItem → GoogleState → List (DataStreamPart ⊕ String) × GoogleState × Bool
  | [], st => ([], st, false)
  | .err e :: _, st => ([Sum.inr e], st, true)
  | .nilResp :: rest, st => googleLoop rest st
  | .resp r :: rest, st =>
    let st := { st with lastResp := some r }
    match r.candidates.head? with
    | none => googleLoop rest st
    | some cand =>
      match cand.content with
      | none => googleLoop rest st
      | some content =>
        let pre : List DataStreamPart :=
          if st.isNewSeg then [DataStreamPart.startStep (uuidStr st.ctr)] else []
        let st1 :=
          if st.isNewSeg then { st with isNewSeg := false, ctr := st.ctr + 1 } else st
        let h := googleHandleParts content.parts st1.ctr st1.finalReason
        let st2 := { st1 with ctr := h.2.1, finalReason := h.2.2 }
        let next := googleLoop rest st2
        ((pre ++ h.1).map Sum.inl ++ next.1, next.2)

/-- `GoogleToDataStream`: the loop, then the final reason (a detected
tool call wins; otherwise the last response's first candidate's finish
reason is mapped, defaulting to "stop" when there is none) and the
final usage, followed by finish-step and finish-message. -/
def GoogleToDataStream (items : List GItem) : List (DataStreamPart ⊕ String) :=
  let r := googleLoop items {}
  let outs := r.1
  let st := r.2.1
  let aborted := r.2.2
  if aborted then outs
  else
    let finalCand : Option GCandidate :=
      match st.lastResp with
      | some resp => resp.candidates.head?
      | none => none
    let actualFinalReason :=
      if st.finalReason = "tool-calls" then "tool-calls"
      else
        match finalCand with
        | some cand =>
          if cand.finishReason = "STOP" then "stop"
          else if cand.finishReason = "MAX_TOKENS" then "length"
          else if cand.finishReason = "SAFETY" then "content-filter"
          else if cand.finishReason = "RECITATION" then "content-filter"
          else if cand.finishReason = "FINISH_REASON_UNSPECIFIED" then "unknown"
          else "other"
        | none => "stop"
    let finalUsage : Usage :=
      match st.lastResp with
      | some resp =>
        match resp.usageMetadata with
        | some um => { promptTokens := um.promptTokenCount, completionTokens := um.candidatesTokenCount }
        | none => {}
      | none => {}
    outs ++ [Sum.inl (.finishStep actualFinalReason finalUsage false),
             Sum.inl (.finishMessage actualFinalReason finalUsage)]

/-! ## OpenAI adapter

`OpenAIToDataStream` (the streaming adapter; both snapshots in the
source share the same finish-reason mapping, and the one embedded here
is the variant that emits both the finish-step and the finish-message
part).  Chat completion chunks are modelled with the fields the
adapter reads. -/

/-- One tool-call delta inside a chunk's choice delta. -/
structure OToolCallDelta where
  id : String := ""
  functionName : String := ""
  functionArguments : String := ""
deriving DecidableEq

/-- One choice of a chunk. -/
structure OChoice where
  deltaContent : String := ""
  deltaToolCalls : List OToolCallDelta := []
  finishReason : String := ""
deriving DecidableEq

/-- A chat completion chunk. -/
structure OChunk where
  choices : List OChoice := []
deriving DecidableEq

/-- The inner loop over a choice's tool-call deltas, threading the
current tool-call id; a delta with arguments but no current id yields
an error downstream and continues. -/
def openAIToolCallsOut : List OToolCallDelta → String → List (DataStreamPart ⊕ String) × String
  | [], currentID => ([], currentID)
  | tc :: rest, currentID =>
    let p1 : List (DataStreamPart ⊕ String) × String :=
      if tc.id ≠ "" then ([Sum.inl (.toolCallStart tc.id tc.functionName)], tc.id)
      else ([], currentID)
    let out2 : List (DataStreamPart ⊕ String) :=
      if tc.functionArguments ≠ "" then
        if p1.2 = "" then [Sum.inr "received tool call delta with empty ID and no current tool call"]
        else [Sum.inl (.toolCallDelta p1.2 tc.functionArguments)]
      else []
    let next := openAIToolCallsOut rest p1.2
    (p1.1 ++ out2 ++ next.1, next.2)

/-- Loop state of `OpenAIToDataStream`. -/
structure OpenAIState where
  currentToolCallID : String := ""
  lastChunk : Option OChunk := none
deriving DecidableEq

/-- The chunk loop of `OpenAIToDataStream` (a chunk without choices
breaks out of the loop). -/
def openAILoop : List OChunk → OpenAIState → List (DataStreamPart ⊕ String) × OpenAIState
  | [], st => ([], st)
  | chunk :: rest, st =>
    let st := { st with lastChunk := some chunk }
    match chunk.choices.head? with
    | none => ([], st)
    | some choice =>
      let textOut : List (DataStreamPart ⊕ String) :=
        if choice.deltaContent ≠ "" then [Sum.inl (.text choice.deltaContent)] else []
      let tcOut := openAIToolCallsOut choice.deltaToolCalls st.currentToolCallID
      let st1 := { st with currentToolCallID := tcOut.2 }
      let finOut : List (DataStreamPart ⊕ String) :=
        if choice.finishReason ≠ "" then
          let fr := if choice.finishReason = "tool_calls" then "tool-calls" else "stop"
          [Sum.inl (.finishStep fr {} false)]
        else []
      let next := openAILoop rest st1
      (textOut ++ tcOut.1 ++ finOut ++ next.1, next.2)

/-- `OpenAIToDataStream`: an already-failed stream emits an error part
and yields no chunks; otherwise the chunk loop runs, and the trailing
finish-message maps the last chunk's first choice's finish reason
("tool_calls" to "tool-calls", anything else — "length",
"content_filter", "stop", even "" — to "stop"; the reason stays the
zero value when there was no last chunk with a choice). -/
def OpenAIToDataStream (preErr : Option String) (chunks : List OChunk) :
    List (DataStreamPart ⊕ String) :=
  let pre : List (DataStreamPart ⊕ String) :=
    match preErr with
    | some e => [Sum.inl (.error e)]
    | none => []
  let iterated := match preErr with | some _ => [] | none => chunks
  let r := openAILoop iterated {}
  let finishReason :=
    match r.2.lastChunk with
    | some chunk =>
      match chunk.choices.head? with
      | some choice => if choice.finishReason = "tool_calls" then "tool-calls" else "stop"
      | none => ""
    | none => ""
  pre ++ r.1 ++ [Sum.inl (.finishMessage finishReason {})]


/-! ## Wire decoding

Modelled from the spec: the repository contains the writer (`Format`)
but no reader; spec section 4.1 fixes the line grammar `TAG:JSON`
terminated by a newline, and testable property 5 asks that splitting a
wire stream on the newline and parsing each `TAG:JSON` line reproduce
the original parts.  The decoder below is the canonical reader for
that grammar: it splits the tag from the JSON document, parses the
document, and rebuilds the tagged part from the payload shape that the
writer produces for that tag. -/

/-- Decode a JSON value standing for an `Option Int` usage field
(JSON null for a nil pointer). -/
def jvalToOptInt : JVal → Option (Option Int)
  | .null => some none
  | .num n => some (some n)
  | _ => none

/-- Decode a usage object. -/
def jvalToUsage : JVal → Option Usage
  | .obj (.cons "promptTokens" pv (.cons "completionTokens" cv .nil)) =>
    match jvalToOptInt pv, jvalToOptInt cv with
    | some p, some c => some { promptTokens := p, completionTokens := c }
    | _, _ => none
  | _ => none

/-- Modelled from the spec: rebuild the part with the given tag from
its decoded JSON payload (inverse of `DataStreamPart.payloadJVal`). -/
def decodeTagPayload (tag : Char) (v : JVal) : Option DataStreamPart :=
  if tag = '0' then
    match v with | .str s => some (.text s) | _ => none
  else if tag = 'g' then
    match v with | .str s => some (.reasoning s) | _ => none
  else if tag = '3' then
    match v with | .str s => some (.error s) | _ => none
  else if tag = 'i' then
    match v with
    | .obj (.cons "data" (.str d) .nil) => some (.redactedReasoning d)
    | _ => none
  else if tag = 'j' then
    match v with
    | .obj (.cons "signature" (.str sg) .nil) => some (.reasoningSignature sg)
    | _ => none
  else if tag = 'h' then
    match v with
    | .obj (.cons "sourceType" (.str st) (.cons "id" (.str id)
        (.cons "url" (.str url) (.cons "title" (.str title) .nil)))) =>
      some (.source st id url title)
    | _ => none
  else if tag = 'k' then
    match v with
    | .obj (.cons "data" (.str b64) (.cons "mimeType" (.str mt) .nil)) =>
      match b64DecodeList b64.data with
      | some bs => some (.file bs mt)
      | none => none
    | _ => none
  else if tag = '2' then
    match v with | .arr a => some (.streamData a) | _ => none
  else if tag = '8' then
    match v with | .arr a => some (.messageAnnotations a) | _ => none
  else if tag = 'b' then
    match v with
    | .obj (.cons "toolCallId" (.str id) (.cons "toolName" (.str name) .nil)) =>
      some (.toolCallStart id name)
    | _ => none
  else if tag = 'c' then
    match v with
    | .obj (.cons "toolCallId" (.str id) (.cons "argsTextDelta" (.str d) .nil)) =>
      some (.toolCallDelta id d)
    | _ => none
  else if tag = '9' then
    match v with
    | .obj (.cons "toolCallId" (.str id) (.cons "toolName" (.str name)
        (.cons "args" (.obj args) .nil))) =>
      some (.toolCall id name args)
    | _ => none
  else if tag = 'a' then
    match v with
    | .obj (.cons "toolCallId" (.str id) (.cons "result" r .nil)) =>
      some (.toolResult id r)
    | _ => none
  else if tag = 'f' then
    match v with
    | .obj (.cons "messageId" (.str mid) .nil) => some (.startStep mid)
    | _ => none
  else if tag = 'e' then
    match v with
    | .obj (.cons "finishReason" (.str r) (.cons "usage" uv
        (.cons "isContinued" (.bool cont) .nil))) =>
      match jvalToUsage uv with
      | some u => some (.finishStep r u cont)
      | none => none
    | _ => none
  else if tag = 'd' then
    match v with
    | .obj (.cons "finishReason" (.str r) (.cons "usage" uv .nil)) =>
      match jvalToUsage uv with
      | some u => some (.finishMessage r u)
      | none => none
    | _ => none
  else none

/-- Modelled from the spec: parse one wire line (without its trailing
newline) of the form `TAG:JSON`.  The JSON document must be consumed
in full. -/
def decodeWireLine (line : String) : Option DataStreamPart :=
  match line.data with
  | tag :: ':' :: rest =>
    match parseJVal (2 * rest.length + 1) rest with
    | some (v, []) => decodeTagPayload tag v
    | _ => none
  | _ => none

/-- Well-formedness of a part for the wire round trip: the bytes of a
file part are bytes (Go's `[]byte` guarantees this; the model carries
them as `Nat`). -/
def DataStreamPart.wf : DataStreamPart → Prop
  | .file d _ => ∀ b ∈ d, b < 256
  | _ => True


/-! ## Codec correctness: numbers -/

/-- Little-endian recomposition of decimal digits. -/
def recomposeDigits : List Nat → Nat
  | [] => 0
  | d :: ds => d + 10 * recomposeDigits ds

theorem natDigitsAux_lt (fuel : Nat) : ∀ (n : Nat), ∀ d ∈ natDigitsAux fuel n, d < 10 := by
  induction fuel with
  | zero => intro n d hd; simp [natDigitsAux] at hd
  | succ fuel ih =>
    intro n d hd
    simp only [natDigitsAux] at hd
    split at hd
    · simp at hd
    · rcases List.mem_cons.mp hd with h | h
      · subst h; exact Nat.mod_lt _ (by norm_num)
      · exact ih _ _ h

theorem natDigitsAux_recompose (fuel : Nat) :
    ∀ n, n ≤ fuel → recomposeDigits (natDigitsAux fuel n) = n := by
  induction fuel with
  | zero =>
    intro n hn
    have : n = 0 := Nat.le_zero.mp hn
    subst this
    rfl
  | succ fuel ih =>
    intro n hn
    simp only [natDigitsAux]
    split
    · rename_i h; subst h; rfl
    · rename_i h
      have hdiv : n / 10 ≤ fuel := by
        have := Nat.div_lt_self (Nat.pos_of_ne_zero h) (by norm_num : 1 < 10)
        omega
      simp only [recomposeDigits, ih _ hdiv]
      omega

theorem digitChar_toNat : ∀ d, d < 10 → (digitChar d).toNat = 48 + d := by decide

theorem digitChar_isDigit : ∀ d, d < 10 → isDigitCh (digitChar d) = true := by decide

theorem digitChar_val : ∀ d, d < 10 → digitVal (digitChar d) = d := by decide

/-- The input does not begin with a decimal digit; a serialized number
is always followed by such input (a separator, a closing bracket, or
nothing). -/
def numSafe : List Char → Prop
  | [] => True
  | c :: _ => isDigitCh c = false

theorem splitDigits_append (ds rest : List Char) (hds : ∀ c ∈ ds, isDigitCh c = true)
    (hrest : numSafe rest) : splitDigits (ds ++ rest) = (ds, rest) := by
  induction ds with
  | nil =>
    cases rest with
    | nil => rfl
    | cons c cs =>
      simp only [numSafe] at hrest
      simp [splitDigits, hrest]
  | cons c ds ih =>
    have hc := hds c (by simp)
    simp only [List.cons_append, splitDigits, hc, if_true]
    rw [show ds.append rest = ds ++ rest from rfl, ih (fun x hx => hds x (by simp [hx]))]

theorem digitsToNat_reverse_map (ds : List Nat) (h : ∀ d ∈ ds, d < 10) :
    digitsToNat ((ds.reverse).map digitChar) = recomposeDigits ds := by
  induction ds with
  | nil => rfl
  | cons d ds ih =>
    have hd := h d (by simp)
    simp only [List.reverse_cons, List.map_append, List.map_cons, List.map_nil]
    unfold digitsToNat
    rw [List.foldl_append]
    simp only [List.foldl_cons, List.foldl_nil]
    have hrec : List.foldl (fun acc c => acc * 10 + digitVal c) 0 ((ds.reverse).map digitChar)
        = recomposeDigits ds := ih (fun x hx => h x (by simp [hx]))
    rw [hrec, digitChar_val d hd]
    simp only [recomposeDigits]
    ring

theorem digitsToNat_natChars (n : Nat) : digitsToNat (natChars n) = n := by
  unfold natChars
  split
  · rename_i h; subst h; rfl
  · rw [digitsToNat_reverse_map _ (natDigitsAux_lt n n), natDigitsAux_recompose n n le_rfl]

theorem natChars_digits (n : Nat) : ∀ c ∈ natChars n, isDigitCh c = true := by
  unfold natChars
  split
  · intro c hc
    simp only [List.mem_singleton] at hc
    subst hc
    decide
  · intro c hc
    simp only [List.mem_map, List.mem_reverse] at hc
    obtain ⟨d, hd, rfl⟩ := hc
    exact digitChar_isDigit d (natDigitsAux_lt n n d hd)

theorem natChars_ne_nil (n : Nat) : natChars n ≠ [] := by
  unfold natChars
  split
  · simp
  · rename_i h
    have hne : natDigitsAux n n ≠ [] := by
      cases n with
      | zero => exact absurd rfl h
      | succ m => simp [natDigitsAux, h]
    simp only [ne_eq, List.map_eq_nil_iff, List.reverse_eq_nil_iff]
    exact hne


theorem isDigitCh_ne (c : Char) (hc : isDigitCh c = true) :
    c ≠ 'n' ∧ c ≠ 't' ∧ c ≠ 'f' ∧ c ≠ '"' ∧ c ≠ '[' ∧ c ≠ lbrace ∧ c ≠ '-' := by
  refine ⟨?_, ?_, ?_, ?_, ?_, ?_, ?_⟩ <;>
    (intro h; rw [h] at hc; exact absurd hc (by decide))

theorem parseJVal_natChars (fuel : Nat) (m : Nat) (rest : List Char) (hrest : numSafe rest) :
    parseJVal (fuel + 1) (natChars m ++ rest) = some (.num (m : Int), rest) := by
  obtain ⟨c, ds, hcd⟩ : ∃ c ds, natChars m = c :: ds := by
    cases h : natChars m with
    | nil => exact absurd h (natChars_ne_nil m)
    | cons c ds => exact ⟨c, ds, rfl⟩
  have hdigs := natChars_digits m
  rw [hcd] at hdigs
  have hc : isDigitCh c = true := hdigs c (by simp)
  obtain ⟨h1, h2, h3, h4, h5, h6, h7⟩ := isDigitCh_ne c hc
  rw [hcd, List.cons_append]
  simp only [parseJVal, h1, h2, h3, h4, h5, h6, h7, if_false, hc, if_true]
  rw [splitDigits_append ds rest (fun x hx => hdigs x (by simp [hx])) hrest]
  have : digitsToNat (c :: ds) = m := by rw [← hcd]; exact digitsToNat_natChars m
  rw [this]

theorem parseJVal_int (fuel : Nat) (n : Int) (rest : List Char) (hrest : numSafe rest) :
    parseJVal (fuel + 1) (intChars n ++ rest) = some (.num n, rest) := by
  unfold intChars
  split
  · rename_i hneg
    rw [List.cons_append]
    have h7 : ('-' : Char) ≠ 'n' ∧ ('-' : Char) ≠ 't' ∧ ('-' : Char) ≠ 'f' ∧
        ('-' : Char) ≠ '"' ∧ ('-' : Char) ≠ '[' ∧ ('-' : Char) ≠ lbrace := by decide
    simp only [parseJVal, h7.1, h7.2.1, h7.2.2.1, h7.2.2.2.1, h7.2.2.2.2.1, h7.2.2.2.2.2,
      if_false, if_pos rfl]
    obtain ⟨c, ds, hcd⟩ : ∃ c ds, natChars n.natAbs = c :: ds := by
      cases h : natChars n.natAbs with
      | nil => exact absurd h (natChars_ne_nil _)
      | cons c ds => exact ⟨c, ds, rfl⟩
    have hdigs := natChars_digits n.natAbs
    rw [hcd] at hdigs
    rw [hcd, splitDigits_append (c :: ds) rest hdigs hrest]
    have hval : digitsToNat (c :: ds) = n.natAbs := by rw [← hcd]; exact digitsToNat_natChars _
    simp only [hval]
    have : -((n.natAbs : Int)) = n := by omega
    rw [this]
    simp
  · rename_i hpos
    have : ((n.natAbs : Int)) = n := Int.natAbs_of_nonneg (by omega)
    rw [← this]
    exact parseJVal_natChars fuel n.natAbs rest hrest

/-! ## Codec correctness: strings -/

theorem hexVal_hexChar : ∀ m, m < 16 → hexVal (hexChar m) = some m := by decide

theorem hex4_of_toNat (c : Char) (h : c.toNat < 256) :
    hex4 '0' '0' (hexChar (c.toNat / 16)) (hexChar (c.toNat % 16)) = some c.toNat := by
  unfold hex4
  rw [show hexVal '0' = some 0 from by decide, hexVal_hexChar (c.toNat / 16) (by omega),
    hexVal_hexChar (c.toNat % 16) (by omega)]
  simp only []
  congr 1
  omega

theorem parseStrChars_escChar (c : Char) (tail : List Char) :
    parseStrChars (escChar c ++ tail) = (parseStrChars tail).map (fun p => (c :: p.1, p.2)) := by
  by_cases h1 : c = '"'
  · subst h1
    rw [show escChar '"' = ['\\', '"'] from by decide]
    simp only [List.cons_append, List.nil_append]
    conv_lhs => unfold parseStrChars
    simp
  by_cases h2 : c = '\\'
  · subst h2
    rw [show escChar '\\' = ['\\', '\\'] from by decide]
    simp only [List.cons_append, List.nil_append]
    conv_lhs => unfold parseStrChars
    simp
  by_cases h3 : c = '\n'
  · subst h3
    rw [show escChar '\n' = ['\\', 'n'] from by decide]
    simp only [List.cons_append, List.nil_append]
    conv_lhs => unfold parseStrChars
    simp
  by_cases h4 : c = '\r'
  · subst h4
    rw [show escChar '\r' = ['\\', 'r'] from by decide]
    simp only [List.cons_append, List.nil_append]
    conv_lhs => unfold parseStrChars
    simp
  by_cases h5 : c = '\t'
  · subst h5
    rw [show escChar '\t' = ['\\', 't'] from by decide]
    simp only [List.cons_append, List.nil_append]
    conv_lhs => unfold parseStrChars
    simp
  by_cases h6 : c = '<'
  · subst h6
    rw [show escChar '<' = ['\\', 'u', '0', '0', '3', 'c'] from by decide]
    simp only [List.cons_append, List.nil_append]
    conv_lhs => unfold parseStrChars
    simp [show hex4 '0' '0' '3' 'c' = some 60 from by decide,
      show Char.ofNat 60 = '<' from by decide]
  by_cases h7 : c = '>'
  · subst h7
    rw [show escChar '>' = ['\\', 'u', '0', '0', '3', 'e'] from by decide]
    simp only [List.cons_append, List.nil_append]
    conv_lhs => unfold parseStrChars
    simp [show hex4 '0' '0' '3' 'e' = some 62 from by decide,
      show Char.ofNat 62 = '>' from by decide]
  by_cases h8 : c = '&'
  · subst h8
    rw [show escChar '&' = ['\\', 'u', '0', '0', '2', '6'] from by decide]
    simp only [List.cons_append, List.nil_append]
    conv_lhs => unfold parseStrChars
    simp [show hex4 '0' '0' '2' '6' = some 38 from by decide,
      show Char.ofNat 38 = '&' from by decide]
  by_cases h9 : c.toNat < 32
  · rw [show escChar c = ['\\', 'u', '0', '0', hexChar (c.toNat / 16), hexChar (c.toNat % 16)]
      from by unfold escChar; rw [if_neg h1, if_neg h2, if_neg h3, if_neg h4, if_neg h5,
        if_neg h6, if_neg h7, if_neg h8, if_pos h9]]
    simp only [List.cons_append, List.nil_append]
    conv_lhs => unfold parseStrChars
    simp [hex4_of_toNat c (by omega), Char.ofNat_toNat]
  by_cases h10 : c.toNat = 0x2028
  · rw [show escChar c = ['\\', 'u', '2', '0', '2', '8']
      from by unfold escChar; rw [if_neg h1, if_neg h2, if_neg h3, if_neg h4, if_neg h5,
        if_neg h6, if_neg h7, if_neg h8, if_neg h9, if_pos h10]]
    simp only [List.cons_append, List.nil_append]
    conv_lhs => unfold parseStrChars
    simp [show hex4 '2' '0' '2' '8' = some 8232 from by decide]
    rw [show Char.ofNat 8232 = c from by rw [← h10]; exact Char.ofNat_toNat c]
  by_cases h11 : c.toNat = 0x2029
  · rw [show escChar c = ['\\', 'u', '2', '0', '2', '9']
      from by unfold escChar; rw [if_neg h1, if_neg h2, if_neg h3, if_neg h4, if_neg h5,
        if_neg h6, if_neg h7, if_neg h8, if_neg h9, if_neg h10, if_pos h11]]
    simp only [List.cons_append, List.nil_append]
    conv_lhs => unfold parseStrChars
    simp [show hex4 '2' '0' '2' '9' = some 8233 from by decide]
    rw [show Char.ofNat 8233 = c from by rw [← h11]; exact Char.ofNat_toNat c]
  · rw [show escChar c = [c]
      from by unfold escChar; rw [if_neg h1, if_neg h2, if_neg h3, if_neg h4, if_neg h5,
        if_neg h6, if_neg h7, if_neg h8, if_neg h9, if_neg h10, if_neg h11]]
    simp only [List.cons_append, List.nil_append]
    conv_lhs => unfold parseStrChars
    rw [if_neg h1, if_neg h2, if_neg (by omega : ¬c.toNat < 32)]

theorem parseStrChars_esc (cs rest : List Char) :
    parseStrChars (escList cs ++ '"' :: rest) = some (cs, rest) := by
  induction cs with
  | nil =>
    show parseStrChars ('"' :: rest) = some ([], rest)
    conv_lhs => unfold parseStrChars
    simp
  | cons c cs ih =>
    show parseStrChars ((escChar c ++ escList cs) ++ '"' :: rest) = _
    rw [List.append_assoc, parseStrChars_escChar, ih]
    rfl


/-! ## Codec correctness: the JSON round trip -/

mutual
/-- Fuel sufficient for `parseJVal` on the serialization of `v`. -/
def fuelSize : JVal → Nat
  | .null => 1
  | .bool _ => 1
  | .num _ => 1
  | .str _ => 1
  | .arr a => 1 + fuelSizeArr a
  | .obj o => 1 + fuelSizeObj o

/-- Fuel for the element parsers on an array tail. -/
def fuelSizeArr : JArr → Nat
  | .nil => 1
  | .cons v rest => 1 + fuelSize v + fuelSizeArr rest

/-- Fuel for the field parsers on an object tail. -/
def fuelSizeObj : JObj → Nat
  | .nil => 1
  | .cons _ v rest => 1 + fuelSize v + fuelSizeObj rest
end

theorem fuelSize_pos (v : JVal) : 1 ≤ fuelSize v := by
  cases v <;> simp [fuelSize]

theorem numSafe_arrMore (a : JArr) (rest : List Char) : numSafe (jserArrMore a ++ rest) := by
  cases a with
  | nil =>
    show numSafe (']' :: rest)
    show isDigitCh ']' = false
    decide
  | cons v a =>
    show numSafe (',' :: _)
    show isDigitCh ',' = false
    decide

theorem numSafe_objMore (o : JObj) (rest : List Char) : numSafe (jserObjMore o ++ rest) := by
  cases o with
  | nil =>
    show numSafe (rbrace :: rest)
    show isDigitCh rbrace = false
    decide
  | cons k v o =>
    show numSafe (',' :: _)
    show isDigitCh ',' = false
    decide

/-- The first character of a serialized value is never a closing
bracket, a closing brace, a comma or a colon. -/
theorem jserChars_head_ne (v : JVal) (c : Char) (tl : List Char) (h : jserChars v = c :: tl) :
    c ≠ ']' ∧ c ≠ rbrace ∧ c ≠ ',' ∧ c ≠ ':' := by
  cases v with
  | null =>
    simp only [jserChars] at h
    obtain ⟨rfl, -⟩ := List.cons.injEq .. ▸ h
    exact ⟨by decide, by decide, by decide, by decide⟩
  | bool b =>
    cases b <;> simp only [jserChars] at h <;>
      (obtain ⟨rfl, -⟩ := List.cons.injEq .. ▸ h;
       exact ⟨by decide, by decide, by decide, by decide⟩)
  | num n =>
    simp only [jserChars] at h
    unfold intChars at h
    split at h
    · obtain ⟨rfl, -⟩ := List.cons.injEq .. ▸ h
      exact ⟨by decide, by decide, by decide, by decide⟩
    · have hc : isDigitCh c = true := by
        have := natChars_digits n.natAbs
        rw [h] at this
        exact this c (by simp)
      refine ⟨?_, ?_, ?_, ?_⟩ <;> (intro he; rw [he] at hc; exact absurd hc (by decide))
  | str s =>
    simp only [jserChars, jserStrChars] at h
    obtain ⟨rfl, -⟩ := List.cons.injEq .. ▸ h
    exact ⟨by decide, by decide, by decide, by decide⟩
  | arr a =>
    simp only [jserChars] at h
    obtain ⟨rfl, -⟩ := List.cons.injEq .. ▸ h
    exact ⟨by decide, by decide, by decide, by decide⟩
  | obj o =>
    simp only [jserChars] at h
    obtain ⟨rfl, -⟩ := List.cons.injEq .. ▸ h
    exact ⟨by decide, by decide, by decide, by decide⟩


theorem jser_ne_nil (v : JVal) : jserChars v ≠ [] := by
  cases v with
  | num n =>
    simp only [jserChars]
    unfold intChars
    split
    · simp
    · exact natChars_ne_nil _
  | bool b => cases b <;> simp [jserChars]
  | null => simp [jserChars]
  | str s => simp [jserChars, jserStrChars]
  | arr a => simp [jserChars]
  | obj o => simp [jserChars]

mutual
theorem parse_jser : ∀ (v : JVal) (fuel : Nat) (rest : List Char),
    fuelSize v ≤ fuel → numSafe rest →
    parseJVal fuel (jserChars v ++ rest) = some (v, rest)
  | v, 0, rest, hf, _ => absurd (le_trans (fuelSize_pos v) hf) (by omega)
  | .null, fuel + 1, rest, _, _ => by
    simp only [jserChars, List.cons_append, List.nil_append]
    conv_lhs => unfold parseJVal
    simp
  | .bool true, fuel + 1, rest, _, _ => by
    simp only [jserChars, List.cons_append, List.nil_append]
    conv_lhs => unfold parseJVal
    simp
  | .bool false, fuel + 1, rest, _, _ => by
    simp only [jserChars, List.cons_append, List.nil_append]
    conv_lhs => unfold parseJVal
    simp
  | .num n, fuel + 1, rest, _, hrest => by
    simp only [jserChars]
    exact parseJVal_int fuel n rest hrest
  | .str s, fuel + 1, rest, _, _ => by
    simp only [jserChars, jserStrChars, List.cons_append, List.append_assoc,
      List.singleton_append]
    conv_lhs => unfold parseJVal
    simp only []
    simp only [if_true, List.nil_append]
    rw [parseStrChars_esc s.data rest]
    rfl
  | .arr a, fuel + 1, rest, hf, hrest => by
    have hb : fuelSize (JVal.arr a) ≤ fuel + 1 := hf
    simp only [fuelSize] at hb
    simp only [jserChars, List.cons_append]
    conv_lhs => unfold parseJVal
    simp only [parseArr_jserTail a fuel rest (by omega) hrest]
    simp
  | .obj o, fuel + 1, rest, hf, hrest => by
    have hb : fuelSize (JVal.obj o) ≤ fuel + 1 := hf
    simp only [fuelSize] at hb
    simp only [jserChars, List.cons_append]
    conv_lhs => unfold parseJVal
    rw [if_neg (by decide : ¬lbrace = 'n'), if_neg (by decide : ¬lbrace = 't'),
      if_neg (by decide : ¬lbrace = 'f'), if_neg (by decide : ¬lbrace = '"'),
      if_neg (by decide : ¬lbrace = '['), if_pos rfl]
    simp only [parseObj_jserTail o fuel rest (by omega) hrest]

theorem parseArr_jserTail : ∀ (a : JArr) (fuel : Nat) (rest : List Char),
    fuelSizeArr a ≤ fuel → numSafe rest →
    parseArrRest fuel (jserArrTail a ++ rest) = some (a, rest)
  | a, 0, _, hf, _ => by
    exfalso
    cases a <;> simp only [fuelSizeArr] at hf <;> omega
  | .nil, fuel + 1, rest, _, _ => by
    simp only [jserArrTail, List.cons_append, List.nil_append]
    conv_lhs => unfold parseArrRest
    simp
  | .cons v a, fuel + 1, rest, hf, hrest => by
    have hb : fuelSizeArr (.cons v a) ≤ fuel + 1 := hf
    simp only [fuelSizeArr] at hb
    simp only [jserArrTail, List.append_assoc]
    obtain ⟨c, tl, hv⟩ : ∃ c tl, jserChars v = c :: tl := by
      cases h : jserChars v with
      | nil => exact absurd h (jser_ne_nil v)
      | cons c tl => exact ⟨c, tl, rfl⟩
    have hne := jserChars_head_ne v c tl hv
    rw [hv, List.cons_append]
    conv_lhs => unfold parseArrRest
    simp only []
    rw [if_neg hne.1]
    rw [← List.cons_append, ← hv]
    simp only [parse_jser v fuel (jserArrMore a ++ rest) (by omega) (numSafe_arrMore a rest),
      parseArr_jserMore a fuel rest (by omega) hrest]

theorem parseArr_jserMore : ∀ (a : JArr) (fuel : Nat) (rest : List Char),
    fuelSizeArr a ≤ fuel → numSafe rest →
    parseArrMore fuel (jserArrMore a ++ rest) = some (a, rest)
  | a, 0, _, hf, _ => by
    exfalso
    cases a <;> simp only [fuelSizeArr] at hf <;> omega
  | .nil, fuel + 1, rest, _, _ => by
    simp only [jserArrMore, List.cons_append, List.nil_append]
    conv_lhs => unfold parseArrMore
    simp
  | .cons v a, fuel + 1, rest, hf, hrest => by
    have hb : fuelSizeArr (.cons v a) ≤ fuel + 1 := hf
    simp only [fuelSizeArr] at hb
    simp only [jserArrMore, List.cons_append, List.append_assoc]
    conv_lhs => unfold parseArrMore
    simp only []
    simp only [if_true]
    simp only [parse_jser v fuel (jserArrMore a ++ rest) (by omega) (numSafe_arrMore a rest),
      parseArr_jserMore a fuel rest (by omega) hrest]
    simp

theorem parseObj_jserTail : ∀ (o : JObj) (fuel : Nat) (rest : List Char),
    fuelSizeObj o ≤ fuel → numSafe rest →
    parseObjRest fuel (jserObjTail o ++ rest) = some (o, rest)
  | o, 0, _, hf, _ => by
    exfalso
    cases o <;> simp only [fuelSizeObj] at hf <;> omega
  | .nil, fuel + 1, rest, _, _ => by
    simp only [jserObjTail, List.cons_append, List.nil_append]
    conv_lhs => unfold parseObjRest
    simp
  | .cons k v o, fuel + 1, rest, hf, hrest => by
    have hb : fuelSizeObj (.cons k v o) ≤ fuel + 1 := hf
    simp only [fuelSizeObj] at hb
    simp only [jserObjTail, jserStrChars, List.cons_append, List.append_assoc,
      List.singleton_append, List.nil_append]
    conv_lhs => unfold parseObjRest
    simp only []
    simp only [if_true]
    rw [parseStrChars_esc k.data (':' :: (jserChars v ++ (jserObjMore o ++ rest)))]
    simp only [parse_jser v fuel (jserObjMore o ++ rest) (by omega) (numSafe_objMore o rest),
      parseObj_jserMore o fuel rest (by omega) hrest]
    rw [if_neg (by decide)]

theorem parseObj_jserMore : ∀ (o : JObj) (fuel : Nat) (rest : List Char),
    fuelSizeObj o ≤ fuel → numSafe rest →
    parseObjMore fuel (jserObjMore o ++ rest) = some (o, rest)
  | o, 0, _, hf, _ => by
    exfalso
    cases o <;> simp only [fuelSizeObj] at hf <;> omega
  | .nil, fuel + 1, rest, _, _ => by
    simp only [jserObjMore, List.cons_append, List.nil_append]
    conv_lhs => unfold parseObjMore
    simp
  | .cons k v o, fuel + 1, rest, hf, hrest => by
    have hb : fuelSizeObj (.cons k v o) ≤ fuel + 1 := hf
    simp only [fuelSizeObj] at hb
    simp only [jserObjMore, jserStrChars, List.cons_append, List.append_assoc,
      List.singleton_append, List.nil_append]
    conv_lhs => unfold parseObjMore
    simp only []
    simp only [if_true]
    rw [parseStrChars_esc k.data (':' :: (jserChars v ++ (jserObjMore o ++ rest)))]
    simp only [parse_jser v fuel (jserObjMore o ++ rest) (by omega) (numSafe_objMore o rest),
      parseObj_jserMore o fuel rest (by omega) hrest]
    rw [if_neg (by decide)]
end


mutual
theorem fuelSize_le : ∀ v : JVal, fuelSize v ≤ 2 * (jserChars v).length
  | .null => by simp [fuelSize, jserChars]
  | .bool b => by cases b <;> simp [fuelSize, jserChars]
  | .num n => by
    have hne := jser_ne_nil (JVal.num n)
    simp only [jserChars] at hne ⊢
    have h : 1 ≤ (intChars n).length := by
      cases h : intChars n with
      | nil => exact absurd h hne
      | cons c tl => simp
    show 1 ≤ 2 * (intChars n).length
    omega
  | .str s => by
    show 1 ≤ 2 * (jserStrChars s).length
    simp only [jserStrChars, List.length_append, List.length_cons]
    omega
  | .arr a => by
    have h := fuelSizeArr_tail_le a
    show 1 + fuelSizeArr a ≤ 2 * ('[' :: jserArrTail a).length
    simp only [List.length_cons]
    omega
  | .obj o => by
    have h := fuelSizeObj_tail_le o
    show 1 + fuelSizeObj o ≤ 2 * (lbrace :: jserObjTail o).length
    simp only [List.length_cons]
    omega

theorem fuelSizeArr_tail_le : ∀ a : JArr, fuelSizeArr a ≤ 2 * (jserArrTail a).length + 1
  | .nil => by
    show 1 ≤ 2 * ([']'] : List Char).length + 1
    simp
  | .cons v a => by
    have h1 := fuelSize_le v
    have h2 := fuelSizeArr_more_le a
    show 1 + fuelSize v + fuelSizeArr a ≤ 2 * (jserChars v ++ jserArrMore a).length + 1
    simp only [List.length_append]
    omega

theorem fuelSizeArr_more_le : ∀ a : JArr, fuelSizeArr a + 1 ≤ 2 * (jserArrMore a).length
  | .nil => by
    show 1 + 1 ≤ 2 * ([']'] : List Char).length
    simp
  | .cons v a => by
    have h1 := fuelSize_le v
    have h2 := fuelSizeArr_more_le a
    show 1 + fuelSize v + fuelSizeArr a + 1 ≤ 2 * (',' :: (jserChars v ++ jserArrMore a)).length
    simp only [List.length_cons, List.length_append]
    omega

theorem fuelSizeObj_tail_le : ∀ o : JObj, fuelSizeObj o ≤ 2 * (jserObjTail o).length + 1
  | .nil => by
    show 1 ≤ 2 * ([rbrace] : List Char).length + 1
    simp
  | .cons k v o => by
    have h1 := fuelSize_le v
    have h2 := fuelSizeObj_more_le o
    show 1 + fuelSize v + fuelSizeObj o ≤
      2 * (jserStrChars k ++ ':' :: (jserChars v ++ jserObjMore o)).length + 1
    simp only [List.length_append, List.length_cons]
    omega

theorem fuelSizeObj_more_le : ∀ o : JObj, fuelSizeObj o + 1 ≤ 2 * (jserObjMore o).length
  | .nil => by
    show 1 + 1 ≤ 2 * ([rbrace] : List Char).length
    simp
  | .cons k v o => by
    have h1 := fuelSize_le v
    have h2 := fuelSizeObj_more_le o
    show 1 + fuelSize v + fuelSizeObj o + 1 ≤
      2 * (',' :: (jserStrChars k ++ ':' :: (jserChars v ++ jserObjMore o))).length
    simp only [List.length_cons, List.length_append]
    omega
end

/-- The JSON round trip at the top level: parsing the full serialized
document gives back the value. -/
theorem parseJValFull_jser (v : JVal) : parseJValFull (jserString v) = some v := by
  unfold parseJValFull jserString
  rw [show (String.mk (jserChars v)).data = jserChars v from rfl]
  have h := parse_jser v (2 * (jserChars v).length + 1) []
    (by have := fuelSize_le v; omega) trivial
  rw [List.append_nil] at h
  rw [h]


/-! ## Codec correctness: single-line property and base64 -/

theorem hexChar_lt16_ne_nl : ∀ m, m < 16 → hexChar m ≠ '\n' := by decide

theorem isDigitCh_ne_nl (c : Char) (h : isDigitCh c = true) : c ≠ '\n' := by
  intro he
  rw [he] at h
  exact absurd h (by decide)

theorem escChar_no_nl (c : Char) : '\n' ∉ escChar c := by
  by_cases h1 : c = '"'
  · rw [h1]; decide
  by_cases h2 : c = '\\'
  · rw [h2]; decide
  by_cases h3 : c = '\n'
  · rw [h3]; decide
  by_cases h4 : c = '\r'
  · rw [h4]; decide
  by_cases h5 : c = '\t'
  · rw [h5]; decide
  by_cases h6 : c = '<'
  · rw [h6]; decide
  by_cases h7 : c = '>'
  · rw [h7]; decide
  by_cases h8 : c = '&'
  · rw [h8]; decide
  by_cases h9 : c.toNat < 32
  · rw [show escChar c = ['\\', 'u', '0', '0', hexChar (c.toNat / 16), hexChar (c.toNat % 16)]
      from by unfold escChar; rw [if_neg h1, if_neg h2, if_neg h3, if_neg h4, if_neg h5,
        if_neg h6, if_neg h7, if_neg h8, if_pos h9]]
    intro hm
    simp only [List.mem_cons, List.not_mem_nil, or_false] at hm
    rcases hm with h | h | h | h | h | h
    · exact absurd h.symm (by decide)
    · exact absurd h.symm (by decide)
    · exact absurd h.symm (by decide)
    · exact absurd h.symm (by decide)
    · exact absurd h.symm (hexChar_lt16_ne_nl (c.toNat / 16) (by omega))
    · exact absurd h.symm (hexChar_lt16_ne_nl (c.toNat % 16) (by omega))
  by_cases h10 : c.toNat = 0x2028
  · rw [show escChar c = ['\\', 'u', '2', '0', '2', '8']
      from by unfold escChar; rw [if_neg h1, if_neg h2, if_neg h3, if_neg h4, if_neg h5,
        if_neg h6, if_neg h7, if_neg h8, if_neg h9, if_pos h10]]
    decide
  by_cases h11 : c.toNat = 0x2029
  · rw [show escChar c = ['\\', 'u', '2', '0', '2', '9']
      from by unfold escChar; rw [if_neg h1, if_neg h2, if_neg h3, if_neg h4, if_neg h5,
        if_neg h6, if_neg h7, if_neg h8, if_neg h9, if_neg h10, if_pos h11]]
    decide
  · rw [show escChar c = [c]
      from by unfold escChar; rw [if_neg h1, if_neg h2, if_neg h3, if_neg h4, if_neg h5,
        if_neg h6, if_neg h7, if_neg h8, if_neg h9, if_neg h10, if_neg h11]]
    simp only [List.mem_singleton]
    intro hm
    exact h3 hm.symm

theorem escList_no_nl (l : List Char) : '\n' ∉ escList l := by
  induction l with
  | nil => simp [escList]
  | cons c l ih =>
    simp only [escList, List.mem_append]
    rintro (h | h)
    · exact escChar_no_nl c h
    · exact ih h

theorem jserStrChars_no_nl (t : String) : '\n' ∉ jserStrChars t := by
  simp only [jserStrChars, List.cons_append, List.mem_cons, List.mem_append,
    List.mem_singleton]
  rintro (h | h | h)
  · exact absurd h.symm (by decide)
  · exact escList_no_nl t.data h
  · exact absurd h.symm (by decide)

theorem natChars_no_nl (n : Nat) : '\n' ∉ natChars n := by
  intro h
  exact isDigitCh_ne_nl '\n' (natChars_digits n '\n' h) rfl

theorem intChars_no_nl (n : Int) : '\n' ∉ intChars n := by
  unfold intChars
  split
  · simp only [List.mem_cons]
    rintro (h | h)
    · exact absurd h.symm (by decide)
    · exact natChars_no_nl _ h
  · exact natChars_no_nl _

mutual
theorem jser_no_nl : ∀ v : JVal, '\n' ∉ jserChars v
  | .null => by decide
  | .bool b => by cases b <;> decide
  | .num n => intChars_no_nl n
  | .str t => jserStrChars_no_nl t
  | .arr a => by
    simp only [jserChars, List.mem_cons]
    rintro (h | h)
    · exact absurd h.symm (by decide)
    · exact jserArrTail_no_nl a h
  | .obj o => by
    simp only [jserChars, List.mem_cons]
    rintro (h | h)
    · exact absurd h.symm (by decide)
    · exact jserObjTail_no_nl o h

theorem jserArrTail_no_nl : ∀ a : JArr, '\n' ∉ jserArrTail a
  | .nil => by decide
  | .cons v a => by
    simp only [jserArrTail, List.mem_append]
    rintro (h | h)
    · exact jser_no_nl v h
    · exact jserArrMore_no_nl a h

theorem jserArrMore_no_nl : ∀ a : JArr, '\n' ∉ jserArrMore a
  | .nil => by decide
  | .cons v a => by
    simp only [jserArrMore, List.mem_cons, List.mem_append]
    rintro (h | h | h)
    · exact absurd h.symm (by decide)
    · exact jser_no_nl v h
    · exact jserArrMore_no_nl a h

theorem jserObjTail_no_nl : ∀ o : JObj, '\n' ∉ jserObjTail o
  | .nil => by decide
  | .cons k v o => by
    simp only [jserObjTail, List.mem_append, List.mem_cons]
    rintro (h | h | h | h)
    · exact jserStrChars_no_nl k h
    · exact absurd h.symm (by decide)
    · exact jser_no_nl v h
    · exact jserObjMore_no_nl o h

theorem jserObjMore_no_nl : ∀ o : JObj, '\n' ∉ jserObjMore o
  | .nil => by decide
  | .cons k v o => by
    simp only [jserObjMore, List.mem_cons, List.mem_append]
    rintro (h | h | h | h | h)
    · exact absurd h.symm (by decide)
    · exact jserStrChars_no_nl k h
    · exact absurd h.symm (by decide)
    · exact jser_no_nl v h
    · exact jserObjMore_no_nl o h
end

theorem b64Char_props : ∀ m, m < 64 → b64Val (b64Char m) = some m ∧ b64Char m ≠ '=' := by
  decide

theorem b64_roundtrip : ∀ bs : List Nat, (∀ b ∈ bs, b < 256) →
    b64DecodeList (b64EncodeList bs) = some bs
  | [], _ => rfl
  | [b1], h => by
    have hb1 : b1 < 256 := h b1 (by simp)
    have p1 := b64Char_props (b1 / 4) (by omega)
    have p2 := b64Char_props (b1 % 4 * 16) (by omega)
    simp only [b64EncodeList]
    conv_lhs => unfold b64DecodeList
    simp only [p1.1, p2.1]
    simp only [and_self, if_true]
    rw [show b1 / 4 * 4 + b1 % 4 * 16 / 16 = b1 from by omega]
  | [b1, b2], h => by
    have hb1 : b1 < 256 := h b1 (by simp)
    have hb2 : b2 < 256 := h b2 (by simp)
    have p1 := b64Char_props (b1 / 4) (by omega)
    have p2 := b64Char_props (b1 % 4 * 16 + b2 / 16) (by omega)
    have p3 := b64Char_props (b2 % 16 * 4) (by omega)
    simp only [b64EncodeList]
    conv_lhs => unfold b64DecodeList
    simp only [p1.1, p2.1, p3.1]
    rw [if_neg p3.2]
    simp only [if_true]
    rw [show b1 / 4 * 4 + (b1 % 4 * 16 + b2 / 16) / 16 = b1 from by omega,
      show (b1 % 4 * 16 + b2 / 16) % 16 * 16 + b2 % 16 * 4 / 4 = b2 from by omega]
  | b1 :: b2 :: b3 :: rest, h => by
    have hb1 : b1 < 256 := h b1 (by simp)
    have hb2 : b2 < 256 := h b2 (by simp)
    have hb3 : b3 < 256 := h b3 (by simp)
    have p1 := b64Char_props (b1 / 4) (by omega)
    have p2 := b64Char_props (b1 % 4 * 16 + b2 / 16) (by omega)
    have p3 := b64Char_props (b2 % 16 * 4 + b3 / 64) (by omega)
    have p4 := b64Char_props (b3 % 64) (by omega)
    have ih := b64_roundtrip rest (fun b hb => h b (by simp [hb]))
    simp only [b64EncodeList]
    conv_lhs => unfold b64DecodeList
    simp only [p1.1, p2.1, p3.1, p4.1]
    rw [if_neg p3.2, if_neg p4.2, ih]
    simp only [Option.map_some']
    rw [show b1 / 4 * 4 + (b1 % 4 * 16 + b2 / 16) / 16 = b1 from by omega,
      show (b1 % 4 * 16 + b2 / 16) % 16 * 16 + (b2 % 16 * 4 + b3 / 64) / 4 = b2 from by omega,
      show (b2 % 16 * 4 + b3 / 64) % 4 * 64 + b3 % 64 = b3 from by omega]

/-! ## Wire round trip -/

theorem TypeID_ne_nl (p : DataStreamPart) : p.TypeID ≠ '\n' := by
  cases p <;> simp [DataStreamPart.TypeID]

theorem jvalToUsage_usageJVal (u : Usage) : jvalToUsage (usageJVal u) = some u := by
  cases u with
  | mk pt ct => cases pt <;> cases ct <;> rfl

theorem decodeTagPayload_payloadJVal :
    ∀ p : DataStreamPart, p.wf → decodeTagPayload p.TypeID p.payloadJVal = some p
  | .text s, _ => rfl
  | .reasoning s, _ => rfl
  | .redactedReasoning d, _ => rfl
  | .reasoningSignature sg, _ => rfl
  | .source st id url title, _ => rfl
  | .file d mt, h => by
    have e : b64DecodeList (String.mk (b64EncodeList d)).data = some d := b64_roundtrip d h
    show (match b64DecodeList (String.mk (b64EncodeList d)).data with
      | some bs => some (DataStreamPart.file bs mt)
      | none => none) = some (DataStreamPart.file d mt)
    rw [e]
  | .streamData a, _ => rfl
  | .messageAnnotations a, _ => rfl
  | .error s, _ => rfl
  | .toolCallStart id name, _ => rfl
  | .toolCallDelta id dl, _ => rfl
  | .toolCall id name args, _ => rfl
  | .toolResult id r, _ => rfl
  | .startStep mid, _ => rfl
  | .finishStep r u cont, _ => by
    have e := jvalToUsage_usageJVal u
    show (match jvalToUsage (usageJVal u) with
      | some u2 => some (DataStreamPart.finishStep r u2 cont)
      | none => none) = some (DataStreamPart.finishStep r u cont)
    rw [e]
  | .finishMessage r u, _ => by
    have e := jvalToUsage_usageJVal u
    show (match jvalToUsage (usageJVal u) with
      | some u2 => some (DataStreamPart.finishMessage r u2)
      | none => none) = some (DataStreamPart.finishMessage r u)
    rw [e]

/-- C9: `Format` produces exactly one `TAG:JSON` line terminated by a
single newline (the newline is the last character and occurs nowhere
else in the line), and splitting that newline off and decoding the
`TAG:JSON` line reproduces the original part, for every part whose
file bytes are in range. -/
theorem format_wire_roundtrip (p : DataStreamPart) (hwf : p.wf) :
    p.Format.data.getLast? = some '\n' ∧
    '\n' ∉ p.Format.data.dropLast ∧
    decodeWireLine (String.mk p.Format.data.dropLast) = some p := by
  have hassoc : p.Format.data
      = (p.TypeID :: ':' :: jserChars p.payloadJVal) ++ ['\n'] := by
    show p.TypeID :: ':' :: (jserChars p.payloadJVal ++ ['\n']) = _
    simp
  refine ⟨?_, ?_, ?_⟩
  · rw [hassoc, List.getLast?_concat]
  · rw [hassoc, List.dropLast_concat]
    intro hm
    rcases List.mem_cons.mp hm with h | hm
    · exact TypeID_ne_nl p h.symm
    rcases List.mem_cons.mp hm with h | hm
    · exact absurd h (by decide)
    · exact jser_no_nl _ hm
  · rw [hassoc, List.dropLast_concat]
    have hp := parse_jser p.payloadJVal (2 * (jserChars p.payloadJVal).length + 1) []
      (by have := fuelSize_le p.payloadJVal; omega) trivial
    rw [List.append_nil] at hp
    show (match parseJVal (2 * (jserChars p.payloadJVal).length + 1)
        (jserChars p.payloadJVal) with
      | some (w, []) => decodeTagPayload p.TypeID w
      | _ => none) = some p
    rw [hp]
    exact decodeTagPayload_payloadJVal p hwf

theorem format_wire_roundtrip_witness :
    (∀ b ∈ [(1 : Nat), 255], b < 256) ∧
    ((DataStreamPart.file [1, 255] "text/plain").Format.data.getLast? = some '\n' ∧
     '\n' ∉ (DataStreamPart.file [1, 255] "text/plain").Format.data.dropLast ∧
     decodeWireLine (String.mk (DataStreamPart.file [1, 255] "text/plain").Format.data.dropLast)
       = some (DataStreamPart.file [1, 255] "text/plain")) :=
  ⟨(by decide : ∀ b ∈ [(1 : Nat), 255], b < 256),
   format_wire_roundtrip (DataStreamPart.file [1, 255] "text/plain")
     (by decide : ∀ b ∈ [(1 : Nat), 255], b < 256)⟩

/-! ## Accumulator invariant: assistant content mirrors the text parts -/

/-- Concatenation, in order, of the `text` fields of the text-typed
parts of a message. -/
def textConcat : List Part → String
  | [] => ""
  | p :: rest => (if p.type = "text" then p.text else "") ++ textConcat rest

/-- The content invariant over an accumulator state: every finished
message and the in-progress message have `content` equal to the
concatenation of their text parts. -/
def accContentInv (a : DataStreamAccumulator) : Prop :=
  (∀ m ∈ a.messages, m.content = textConcat m.parts) ∧
  (∀ m, a.currentMessage = some m → m.content = textConcat m.parts)

theorem textConcat_snoc (ps : List Part) (p : Part) :
    textConcat (ps ++ [p]) = textConcat ps ++ (if p.type = "text" then p.text else "") := by
  induction ps with
  | nil => show (if p.type = "text" then p.text else "") ++ "" = "" ++ _
           rw [String.append_empty]; rfl
  | cons q rest ih =>
    show (if q.type = "text" then q.text else "") ++ textConcat (rest ++ [p]) = _
    rw [ih, ← String.append_assoc]
    rfl

theorem eq_dropLast_concat {α : Type} (l : List α) (a : α) (h : l.getLast? = some a) :
    l = l.dropLast ++ [a] := by
  induction l with
  | nil => exact absurd h (by simp)
  | cons x xs ih =>
    cases xs with
    | nil => simp at h; simp [h]
    | cons y ys =>
      rw [List.getLast?_cons_cons] at h
      rw [List.dropLast_cons_of_ne_nil (by simp), List.cons_append, ← ih h]

theorem textConcat_modifyPart (ps : List Part) (i : Nat) (f : Part → Part)
    (hf : ∀ p, (f p).type = p.type ∧ (f p).text = p.text) :
    textConcat (modifyPart ps i f) = textConcat ps := by
  induction ps generalizing i with
  | nil => rfl
  | cons p rest ih =>
    cases i with
    | zero =>
      show (if (f p).type = "text" then (f p).text else "") ++ textConcat rest = _
      rw [(hf p).1, (hf p).2]
      rfl
    | succ j =>
      show (if p.type = "text" then p.text else "") ++ textConcat (modifyPart rest j f) = _
      rw [ih j]
      rfl

theorem promoteWipPart_pres (p : Part) :
    (promoteWipPart p).type = p.type ∧ (promoteWipPart p).text = p.text := by
  unfold promoteWipPart
  split
  · exact ⟨rfl, rfl⟩
  split
  · exact ⟨rfl, rfl⟩
  split
  · split
    · split
      · exact ⟨rfl, rfl⟩
      · exact ⟨rfl, rfl⟩
    · exact ⟨rfl, rfl⟩
  · exact ⟨rfl, rfl⟩

theorem textConcat_promoteWipList (wip : List (String × Nat)) (ps : List Part) :
    textConcat (promoteWipList wip ps) = textConcat ps := by
  induction wip generalizing ps with
  | nil => rfl
  | cons e rest ih =>
    cases e with
    | mk k idx =>
      rw [promoteWipList, ih, textConcat_modifyPart _ _ _ promoteWipPart_pres]

theorem ensure_contentInv (a : DataStreamAccumulator) (h : accContentInv a) :
    accContentInv a.ensureCurrentMessage := by
  unfold DataStreamAccumulator.ensureCurrentMessage
  split
  · exact h
  · refine ⟨h.1, ?_⟩
    intro m hm
    have hm' : some { role := "assistant", parts := [] } = some m := hm
    cases hm'
    rfl

theorem push_contentInv (a0 : DataStreamAccumulator) (p : DataStreamPart)
    (h : accContentInv a0) : accContentInv (a0.Push p).1 := by
  have he := ensure_contentInv a0 h
  cases p with
  | text s =>
    unfold DataStreamAccumulator.Push
    simp only []
    split
    · exact he
    next m heq =>
      have hcur := he.2 m heq
      refine ⟨he.1, ?_⟩
      intro m2 hm2
      have hm2' : some _ = some m2 := hm2
      cases hm2'
      show m.content ++ s = textConcat (match m.parts.getLast? with
        | some lastP =>
          if lastP.type = "text" then
            m.parts.dropLast ++ [{ lastP with text := lastP.text ++ s }]
          else m.parts ++ [{ type := "text", text := s }]
        | none => m.parts ++ [{ type := "text", text := s }])
      split
      next lastP hl =>
        split
        next htype =>
          rw [textConcat_snoc, hcur]
          conv_lhs => rw [eq_dropLast_concat m.parts lastP hl]
          rw [textConcat_snoc, if_pos htype]
          rw [show ({ lastP with text := lastP.text ++ s } : Part).type = lastP.type from rfl,
            if_pos htype, String.append_assoc]
        next htype =>
          rw [textConcat_snoc, hcur]
          simp
      next hl =>
        rw [textConcat_snoc, hcur]
        simp
  | reasoning s =>
    unfold DataStreamAccumulator.Push
    simp only []
    split
    · exact he
    next m heq =>
      have hcur := he.2 m heq
      refine ⟨he.1, ?_⟩
      intro m2 hm2
      have hm2' : some _ = some m2 := hm2
      cases hm2'
      show m.content = textConcat (match findReasoningIdx m.parts with
        | some i => modifyPart m.parts i (fun p => { p with reasoning := p.reasoning ++ s })
        | none => m.parts ++ [{ type := "reasoning", reasoning := s }])
      split
      · rw [textConcat_modifyPart]
        · exact hcur
        · intro q
          exact ⟨rfl, rfl⟩
      · rw [textConcat_snoc, hcur]
        simp
  | file d mt =>
    unfold DataStreamAccumulator.Push
    simp only []
    split
    · exact he
    next m heq =>
      have hcur := he.2 m heq
      refine ⟨he.1, ?_⟩
      intro m2 hm2
      have hm2' : some _ = some m2 := hm2
      cases hm2'
      show m.content = textConcat (m.parts ++ [{ type := "file", mimeType := mt, data := d }])
      rw [textConcat_snoc, hcur]
      simp
  | source st id url title =>
    unfold DataStreamAccumulator.Push
    simp only []
    split
    · exact he
    next m heq =>
      have hcur := he.2 m heq
      refine ⟨he.1, ?_⟩
      intro m2 hm2
      have hm2' : some _ = some m2 := hm2
      cases hm2'
      show m.content = textConcat (m.parts ++
        [{ type := "source"
           source := some
             { uri := url, contentType := "", data := "",
               metadata := .cons "id" (.str id) (.cons "title" (.str title)
                 (.cons "sourceType" (.str st) .nil)) } }])
      rw [textConcat_snoc, hcur]
      simp
  | startStep mid =>
    unfold DataStreamAccumulator.Push
    simp only []
    split
    · exact he
    next m heq =>
      have hcur := he.2 m heq
      refine ⟨he.1, ?_⟩
      intro m2 hm2
      have hm2' : some _ = some m2 := hm2
      cases hm2'
      show (if m.id = "" then { m with id := mid } else m).content
        = textConcat ((if m.id = "" then { m with id := mid } else m).parts ++ [{ type := "step-start" }])
      rw [textConcat_snoc]
      split <;> · rw [hcur]; simp
  | toolCallStart id name =>
    unfold DataStreamAccumulator.Push
    simp only []
    split
    · exact he
    next m heq =>
      have hcur := he.2 m heq
      refine ⟨he.1, ?_⟩
      intro m2 hm2
      have hm2' : some _ = some m2 := hm2
      cases hm2'
      show m.content = textConcat (m.parts ++
        [{ type := "tool-invocation"
           toolInvocation := some
             { state := "partial-call", toolCallId := id, toolName := name, args := .str "" }
           isComplete := false }])
      rw [textConcat_snoc, hcur]
      simp
  | toolCallDelta id d =>
    unfold DataStreamAccumulator.Push
    simp only []
    split
    · exact he
    next m heq =>
      have hcur := he.2 m heq
      split
      · exact he
      split
      · exact he
      split
      · exact he
      split
      · refine ⟨he.1, ?_⟩
        intro m2 hm2
        have hm2' : some _ = some m2 := hm2
        cases hm2'
        show m.content = textConcat (modifyPart m.parts _ _)
        rw [textConcat_modifyPart]
        · exact hcur
        · intro q
          rcases q.toolInvocation with _ | qi <;> exact ⟨rfl, rfl⟩
      · exact he
  | toolCall id name args =>
    unfold DataStreamAccumulator.Push
    simp only []
    split
    · exact he
    next m heq =>
      have hcur := he.2 m heq
      refine ⟨he.1, ?_⟩
      intro m2 hm2
      have hm2' : some _ = some m2 := hm2
      cases hm2'
      show m.content = textConcat (match findToolPartIdx m.parts id with
        | some i =>
          modifyPart m.parts i
            (fun p =>
              match p.toolInvocation with
              | some inv =>
                { p with
                  toolInvocation := some { inv with toolName := name, args := .obj args, state := "call" }
                  isComplete := true }
              | none => p)
        | none =>
          m.parts ++
            [{ type := "tool-invocation"
               toolInvocation := some
                 { state := "call", toolCallId := id, toolName := name, args := .obj args }
               isComplete := true }])
      split
      · rw [textConcat_modifyPart]
        · exact hcur
        · intro q
          rcases q.toolInvocation with _ | qi <;> exact ⟨rfl, rfl⟩
      · rw [textConcat_snoc, hcur]
        simp
  | toolResult id r =>
    unfold DataStreamAccumulator.Push
    simp only []
    split
    · exact he
    next m heq =>
      have hcur := he.2 m heq
      split
      · refine ⟨he.1, ?_⟩
        intro m2 hm2
        have hm2' : some _ = some m2 := hm2
        cases hm2'
        show m.content = textConcat (modifyPart m.parts _ _)
        rw [textConcat_modifyPart]
        · exact hcur
        · intro q
          rcases q.toolInvocation with _ | qi <;> exact ⟨rfl, rfl⟩
      · exact he
  | streamData content =>
    unfold DataStreamAccumulator.Push
    simp only []
    split
    · exact he
    next m heq =>
      have hcur := he.2 m heq
      refine ⟨he.1, ?_⟩
      intro m2 hm2
      have hm2' : some _ = some m2 := hm2
      cases hm2'
      exact hcur
  | messageAnnotations content =>
    unfold DataStreamAccumulator.Push
    simp only []
    split
    · exact he
    next m heq =>
      have hcur := he.2 m heq
      refine ⟨he.1, ?_⟩
      intro m2 hm2
      have hm2' : some _ = some m2 := hm2
      cases hm2'
      exact hcur
  | finishStep r u cont =>
    unfold DataStreamAccumulator.Push
    simp only []
    split
    next m heq =>
      have hcur := he.2 m heq
      split
      · refine ⟨he.1, ?_⟩
        intro m2 hm2
        have hm2' : some _ = some m2 := hm2
        cases hm2'
        show m.content = textConcat (promoteWipList _ m.parts)
        rw [textConcat_promoteWipList]
        exact hcur
      · refine ⟨?_, ?_⟩
        · intro m2 hm2
          rcases List.mem_append.mp hm2 with hmem | hmem
          · exact he.1 m2 hmem
          · rcases List.mem_singleton.mp hmem with rfl
            show m.content = textConcat (promoteWipList _ m.parts)
            rw [textConcat_promoteWipList]
            exact hcur
        · intro m2 hm2
          exact Option.noConfusion hm2
    · exact ⟨he.1, he.2⟩
  | finishMessage r u =>
    unfold DataStreamAccumulator.Push
    simp only []
    split
    next m heq =>
      have hcur := h.2 m heq
      refine ⟨?_, ?_⟩
      · intro m2 hm2
        rcases List.mem_append.mp hm2 with hmem | hmem
        · exact h.1 m2 hmem
        · rcases List.mem_singleton.mp hmem with rfl
          show m.content = textConcat (promoteWipList _ m.parts)
          rw [textConcat_promoteWipList]
          exact hcur
      · intro m2 hm2
        exact Option.noConfusion hm2
    · exact ⟨h.1, fun m2 hm2 => Option.noConfusion hm2⟩
  | error content =>
    exact ⟨he.1, he.2⟩
  | redactedReasoning d =>
    exact he
  | reasoningSignature sg =>
    exact he

theorem pushAllFrom_contentInv (ps : List DataStreamPart) :
    ∀ a : DataStreamAccumulator, accContentInv a → accContentInv (pushAllFrom a ps) := by
  induction ps with
  | nil => intro a h; exact h
  | cons p rest ih =>
    intro a h
    exact ih (a.Push p).1 (push_contentInv a p h)

/-- C1: for every sequence of data-stream parts pushed into a fresh
accumulator, every assistant message in the resulting message list has
`content` equal to the concatenation, in order, of the `text` fields
of its text-typed parts. -/
theorem pushAll_assistant_content (ps : List DataStreamPart) (m : Message)
    (hm : m ∈ (pushAll ps).messages) (hrole : m.role = "assistant") :
    m.content = textConcat m.parts :=
  (pushAllFrom_contentInv ps {} ⟨fun _ hme => absurd hme (by simp), fun _ hc => Option.noConfusion hc⟩).1 m hm

theorem pushAll_assistant_content_witness :
    ({ content := "hi", role := "assistant", parts := [{ type := "text", text := "hi" }] } : Message) ∈ (pushAll [DataStreamPart.text "hi", DataStreamPart.finishMessage "stop" ({} : Usage)]).messages ∧
    ({ content := "hi", role := "assistant", parts := [{ type := "text", text := "hi" }] } : Message).role = "assistant" ∧
    ({ content := "hi", role := "assistant", parts := [{ type := "text", text := "hi" }] } : Message).content = textConcat ({ content := "hi", role := "assistant", parts := [{ type := "text", text := "hi" }] } : Message).parts :=
  by
  refine ⟨by decide, rfl, ?_⟩
  exact pushAll_assistant_content
    [DataStreamPart.text "hi", DataStreamPart.finishMessage "stop" ({} : Usage)]
    { content := "hi", role := "assistant", parts := [{ type := "text", text := "hi" }] }
    (by decide) rfl

/-- C10: on a fresh accumulator, a lone finish-step with
isContinued=false appends exactly one assistant message with empty
content and no parts, while a lone finish-message appends no message;
both record the part's finish reason (and finish-message the usage). -/
theorem fresh_finish_behavior (r : String) (u : Usage) :
    (({} : DataStreamAccumulator).Push (.finishStep r u false)).1.messages
      = [{ role := "assistant", content := "", parts := [] }] ∧
    (({} : DataStreamAccumulator).Push (.finishStep r u false)).1.finishReason = r ∧
    (({} : DataStreamAccumulator).Push (.finishMessage r u)).1.messages = [] ∧
    (({} : DataStreamAccumulator).Push (.finishMessage r u)).1.finishReason = r ∧
    (({} : DataStreamAccumulator).Push (.finishMessage r u)).1.usage = u :=
  ⟨rfl, rfl, rfl, rfl, rfl⟩

/-- C3: on a Google stream whose candidate carries a function call with
args that marshal successfully, the adapter emits the start and delta
parts but then an error part (the marshal-failure message formatted
with a nil error), and the final finish-step and finish-message carry
finish reason "stop" from the candidate, not "tool-calls". -/
theorem google_funcCall_actual_behavior :
    GoogleToDataStream [.resp { candidates := [{ content := some { parts := [{ functionCall := some { name := "f", args := .nil } }] }, finishReason := "STOP" }] }]
      = [Sum.inl (.startStep (uuidStr 0)),
         Sum.inl (.toolCallStart (uuidStr 1) "f"),
         Sum.inl (.toolCallDelta (uuidStr 1) "\x7b\x7d"),
         Sum.inl (.error "failed to marshal function call args for f: %!s(<nil>)"),
         Sum.inl (.finishStep "stop" {} false),
         Sum.inl (.finishMessage "stop" {})] := by decide

/-- C4 (amended): with an active message, a tool-call-delta whose id
was never registered is silently dropped — `Push` returns no error and
leaves the accumulator unchanged — while a tool-result for an id with
no matching tool part returns the unknown-tool-call error. -/
theorem push_unknown_id_behavior (a : DataStreamAccumulator) (id d : String) (r : JVal)
    (m : Message) (hcur : a.currentMessage = some m)
    (hwip : assocLookup a.wipToolCalls id = none)
    (hfind : findToolPartIdx m.parts id = none) :
    a.Push (.toolCallDelta id d) = (a, none) ∧
    a.Push (.toolResult id r)
      = (a, some ("tool result received for unknown tool call ID: " ++ id)) := by
  have hens : a.ensureCurrentMessage = a := by
    unfold DataStreamAccumulator.ensureCurrentMessage
    rw [hcur]
  constructor
  · unfold DataStreamAccumulator.Push
    simp only [hens, hcur, hwip]
  · unfold DataStreamAccumulator.Push
    simp only [hens, hcur, hfind]

theorem push_unknown_id_behavior_witness :
    (({} : DataStreamAccumulator).ensureCurrentMessage.currentMessage
        = some { role := "assistant", parts := [] } ∧
      assocLookup ({} : DataStreamAccumulator).ensureCurrentMessage.wipToolCalls "t1" = none ∧
      findToolPartIdx ({ role := "assistant", parts := [] } : Message).parts "t1" = none) ∧
    (({} : DataStreamAccumulator).ensureCurrentMessage.Push (.toolCallDelta "t1" "x")
        = (({} : DataStreamAccumulator).ensureCurrentMessage, none) ∧
      ({} : DataStreamAccumulator).ensureCurrentMessage.Push (.toolResult "t1" (.str "ok"))
        = (({} : DataStreamAccumulator).ensureCurrentMessage,
           some ("tool result received for unknown tool call ID: " ++ "t1"))) := by
  refine ⟨⟨rfl, rfl, rfl⟩, ?_⟩
  exact push_unknown_id_behavior ({} : DataStreamAccumulator).ensureCurrentMessage
    "t1" "x" (.str "ok") { role := "assistant", parts := [] } rfl rfl rfl

/-- C4 counterexample: a tool-call-delta for an id never registered by
a tool-call-start produces no error at all (the claim requires an
unknown-tool-call error here). -/
theorem push_delta_unknown_counterexample :
    (({} : DataStreamAccumulator).ensureCurrentMessage.Push
      (.toolCallDelta "t1" "x")).2 = none := rfl

/-! ## Middleware: handler invocation counting -/

/-- Whether an upstream item is a finalized tool-call part for `id`. -/
def itemIsToolCallFor (id : String) : DataStreamPart ⊕ String → Bool
  | .inl (.toolCall i _ _) => i == id
  | _ => false

/-- Whether an upstream item is a tool-call-delta part for `id`. -/
def itemIsDeltaFor (id : String) : DataStreamPart ⊕ String → Bool
  | .inl (.toolCallDelta i _) => i == id
  | _ => false

theorem wtcStep_inv_bound (handler : ToolCall → JVal) (st : WTCState) (p : DataStreamPart)
    (id : String) :
    ((wtcStep handler st p).2.1.countP (fun c => c.id == id))
      ≤ (if itemIsToolCallFor id (Sum.inl p) then 1 else 0)
        + (if itemIsDeltaFor id (Sum.inl p) then 1 else 0) := by
  cases p with
  | toolCall i n a =>
    show List.countP _ [({ id := i, name := n, args := a } : ToolCall)] ≤ _
    rw [List.countP_cons, List.countP_nil]
    simp only [itemIsToolCallFor, itemIsDeltaFor]
    by_cases h : i = id
    · simp [h]
    · simp [h]
  | toolCallDelta i d =>
    show ((wtcProcessDelta handler st i d).2.1.countP (fun c => c.id == id)) ≤ _
    unfold wtcProcessDelta
    simp only [itemIsToolCallFor, itemIsDeltaFor]
    split
    · show List.countP _ [({ id := i, name := _, args := _ } : ToolCall)] ≤ _
      rw [List.countP_cons, List.countP_nil]
      by_cases h : i = id
      · simp [h]
      · simp [h]
    · simp
  | text s => simp [wtcStep]
  | reasoning s => simp [wtcStep]
  | redactedReasoning s => simp [wtcStep]
  | reasoningSignature s => simp [wtcStep]
  | source st2 i u t => simp [wtcStep]
  | file d mt => simp [wtcStep]
  | streamData c => simp [wtcStep]
  | messageAnnotations c => simp [wtcStep]
  | error c => simp [wtcStep]
  | toolCallStart i n => simp [wtcStep]
  | toolResult i r => simp [wtcStep]
  | startStep mid => simp [wtcStep]
  | finishStep r u c => simp [wtcStep]
  | finishMessage r u => simp [wtcStep]

/-- C2 (amended): for every upstream sequence and id, the middleware
invokes the handler at most once per tool-call-delta part and once per
finalized tool-call part carrying that id — a finalized tool-call
after a successfully parsed delta buffer does invoke the handler
again, so the true bound is the sum of the two counts, not one. -/
theorem wtc_per_id_invocation_bound (handler : ToolCall → JVal) (id : String) :
    ∀ (upstream : List (DataStreamPart ⊕ String)) (st : WTCState),
    ((runWTCFrom handler st upstream).2.countP (fun c => c.id == id))
      ≤ upstream.countP (itemIsToolCallFor id) + upstream.countP (itemIsDeltaFor id) := by
  intro upstream
  induction upstream with
  | nil => intro st; simp [runWTCFrom]
  | cons item rest ih =>
    intro st
    cases item with
    | inr e =>
      show ([] : List ToolCall).countP _ ≤ _
      simp
    | inl p =>
      show ((wtcStep handler st p).2.1 ++ (runWTCFrom handler (wtcStep handler st p).2.2 rest).2).countP _ ≤ _
      rw [List.countP_append, List.countP_cons, List.countP_cons]
      have h1 := wtcStep_inv_bound handler st p id
      have h2 := ih (wtcStep handler st p).2.2
      omega

/-- C2 counterexample: after the buffered delta for id "t" parses as a
JSON object and triggers the handler, the finalized tool-call part for
the same id triggers it a second time. -/
theorem wtc_double_invocation_counterexample :
    (runWithToolCalling (fun _ => JVal.null)
      [Sum.inl (.toolCallStart "t" "f"), Sum.inl (.toolCallDelta "t" "\x7b\x7d"),
       Sum.inl (.toolCall "t" "f" .nil)]).2
      = [{ id := "t", name := "f", args := .nil }, { id := "t", name := "f", args := .nil }] := by
  decide

/-! ## Adapter finish-reason mappings -/

/-- C5 (amended): the full vendor-reason table (max_tokens to length,
end_turn / stop_sequence to stop, tool_use to tool-calls, any other
non-empty reason to other) is implemented by the piping adapter
`PipeAnthropicToDataStream`, in both the finish-step and the
finish-message it emits; `AnthropicToDataStream` has no such table
(see the counterexample). -/
theorem pipe_anthropic_reason_mapping (handler : ToolCall → JVal) (tok : Int) :
    (∀ r, r = "end_turn" ∨ r = "stop_sequence" →
      PipeAnthropicToDataStream handler [.messageDelta r tok, .messageStop] none
        = [.finishStep "stop" { completionTokens := some tok } false,
           .finishMessage "stop" { completionTokens := some tok }]) ∧
    PipeAnthropicToDataStream handler [.messageDelta "max_tokens" tok, .messageStop] none
      = [.finishStep "length" { completionTokens := some tok } false,
         .finishMessage "length" { completionTokens := some tok }] ∧
    PipeAnthropicToDataStream handler [.messageDelta "tool_use" tok, .messageStop] none
      = [.finishStep "tool-calls" { completionTokens := some tok } false,
         .finishMessage "tool-calls" { completionTokens := some tok }] ∧
    (∀ r, r ≠ "" → r ≠ "end_turn" → r ≠ "stop_sequence" → r ≠ "max_tokens" → r ≠ "tool_use" →
      PipeAnthropicToDataStream handler [.messageDelta r tok, .messageStop] none
        = [.finishStep "other" { completionTokens := some tok } false,
           .finishMessage "other" { completionTokens := some tok }]) := by
  refine ⟨?_, rfl, rfl, ?_⟩
  · intro r hr
    rcases hr with rfl | rfl <;> rfl
  · intro r h1 h2 h3 h4 h5
    simp [PipeAnthropicToDataStream, pipeAnthLoop, pipeAnthStep, anthAccumulate,
      h1, h2, h3, h4, h5]

theorem pipe_anthropic_reason_mapping_witness :
    (("weird" : String) ≠ "" ∧ ("weird" : String) ≠ "end_turn" ∧
      ("weird" : String) ≠ "stop_sequence" ∧ ("weird" : String) ≠ "max_tokens" ∧
      ("weird" : String) ≠ "tool_use") ∧
    PipeAnthropicToDataStream (fun _ => JVal.null) [.messageDelta "weird" 7, .messageStop] none
      = [.finishStep "other" { completionTokens := some 7 } false,
         .finishMessage "other" { completionTokens := some 7 }] := by
  refine ⟨⟨by decide, by decide, by decide, by decide, by decide⟩, ?_⟩
  exact (pipe_anthropic_reason_mapping (fun _ => JVal.null) 7).2.2.2 "weird"
    (by decide) (by decide) (by decide) (by decide) (by decide)

/-- C5 counterexample: `AnthropicToDataStream` maps a max_tokens stop
reason to finish reason "stop", not "length" — the message-delta
handler there only checks for tool_use, and message_stop defaults the
unknown reason to "stop". -/
theorem anthropic_max_tokens_counterexample :
    AnthropicToDataStream [.messageDelta "max_tokens" 5, .messageStop] none
      = [Sum.inl (.finishStep "stop" {} false), Sum.inl (.finishMessage "stop" {})] := by
  decide

/-- C6 (amended): the OpenAI adapter maps the vendor finish reason
"tool_calls" to "tool-calls" and every other non-empty reason —
including "length" and "content_filter" — to "stop", in both the
finish-step and the trailing finish-message. -/
theorem openai_reason_mapping :
    (OpenAIToDataStream none [{ choices := [{ finishReason := "tool_calls" }] }]
      = [Sum.inl (.finishStep "tool-calls" {} false),
         Sum.inl (.finishMessage "tool-calls" {})]) ∧
    (∀ r, r ≠ "" → r ≠ "tool_calls" →
      OpenAIToDataStream none [{ choices := [{ finishReason := r }] }]
        = [Sum.inl (.finishStep "stop" {} false), Sum.inl (.finishMessage "stop" {})]) := by
  refine ⟨rfl, ?_⟩
  intro r h1 h2
  simp [OpenAIToDataStream, openAILoop, openAIToolCallsOut, h1, h2]

theorem openai_reason_mapping_witness :
    (("length" : String) ≠ "" ∧ ("length" : String) ≠ "tool_calls") ∧
    OpenAIToDataStream none [{ choices := [{ finishReason := "length" }] }]
      = [Sum.inl (.finishStep "stop" {} false), Sum.inl (.finishMessage "stop" {})] := by
  refine ⟨⟨by decide, by decide⟩, ?_⟩
  exact (openai_reason_mapping).2 "length" (by decide) (by decide)

/-- C6 counterexample: the vendor reason "length" comes out as finish
reason "stop", not "length" as the claim states. -/
theorem openai_length_counterexample :
    OpenAIToDataStream none [{ choices := [{ finishReason := "length" }] }]
      = [Sum.inl (.finishStep "stop" {} false), Sum.inl (.finishMessage "stop" {})] := by
  decide

theorem anthLoop_reason_stable : ∀ (events : List AnthEvent) (st : AnthState),
    (∀ e ∈ events, isMessageStopEvent e = false) →
    (∀ r tok, AnthEvent.messageDelta r tok ∈ events → r ≠ "tool_use") →
    (anthLoop st events).2.finalReason = st.finalReason ∧
    (anthLoop st events).2.finalUsage = st.finalUsage := by
  intro events
  induction events with
  | nil => intro st _ _; exact ⟨rfl, rfl⟩
  | cons e rest ih =>
    intro st hstop htool
    have hrest := ih (anthStep st e).2 (fun x hx => hstop x (List.mem_cons_of_mem _ hx))
      (fun r tok hm => htool r tok (List.mem_cons_of_mem _ hm))
    have hstep : (anthStep st e).2.finalReason = st.finalReason ∧
        (anthStep st e).2.finalUsage = st.finalUsage := by
      cases e with
      | messageStart id => exact ⟨rfl, rfl⟩
      | contentBlockStart idx b => cases b <;> exact ⟨rfl, rfl⟩
      | contentBlockDelta idx d => cases d <;> exact ⟨rfl, rfl⟩
      | contentBlockStop idx => exact ⟨rfl, rfl⟩
      | messageDelta r tok =>
        have hr : r ≠ "tool_use" := htool r tok (List.mem_cons_self _ _)
        have hred : anthStep st (.messageDelta r tok) = ([], st) := by
          show (if r = "tool_use" then _ else ([], st)) = ([], st)
          rw [if_neg hr]
        rw [hred]
        exact ⟨rfl, rfl⟩
      | messageStop =>
        exact absurd (hstop _ (List.mem_cons_self _ _)) (by decide)
      | ping => exact ⟨rfl, rfl⟩
    show (anthLoop (anthStep st e).2 rest).2.finalReason = _ ∧
      (anthLoop (anthStep st e).2 rest).2.finalUsage = _
    rw [hrest.1, hrest.2, hstep.1, hstep.2]
    exact ⟨rfl, rfl⟩

/-- C7 (amended): for an Anthropic stream that ends without a
message_stop event and never set a finish reason, the adapter still
emits a terminal finish-message after the already-sent parts, with
finish reason "error"; a stream that ends with a stream error instead
yields the wrapped error as its last item and emits no trailing
finish-message. -/
theorem anthropic_missing_stop_behavior (events : List AnthEvent)
    (hstop : ∀ e ∈ events, isMessageStopEvent e = false)
    (htool : ∀ r tok, AnthEvent.messageDelta r tok ∈ events → r ≠ "tool_use") :
    AnthropicToDataStream events none
      = (anthLoop {} events).1.map Sum.inl ++ [Sum.inl (.finishMessage "error" {})] ∧
    (∀ e, AnthropicToDataStream events (some e)
      = (anthLoop {} events).1.map Sum.inl ++ [Sum.inr ("anthropic stream error: " ++ e)]) := by
  have hstable := anthLoop_reason_stable events {} hstop htool
  constructor
  · unfold AnthropicToDataStream
    rcases hE : events.getLast? with _ | last
    · simp only [hE]
      rw [hstable.1, hstable.2]
      simp
    · have hmem : last ∈ events := by
        rw [eq_dropLast_concat events last hE]; simp
      have hfalse : isMessageStopEvent last = false := hstop last hmem
      simp only [hE, hfalse]
      rw [hstable.1, hstable.2]
      simp
  · intro e
    rfl

theorem anthropic_missing_stop_behavior_witness :
    (∀ e ∈ [AnthEvent.messageStart "m1", AnthEvent.contentBlockDelta 0 (.textDelta "hi")],
      isMessageStopEvent e = false) ∧
    (∀ r tok, AnthEvent.messageDelta r tok
        ∈ [AnthEvent.messageStart "m1", AnthEvent.contentBlockDelta 0 (.textDelta "hi")] →
      r ≠ "tool_use") ∧
    AnthropicToDataStream [AnthEvent.messageStart "m1", AnthEvent.contentBlockDelta 0 (.textDelta "hi")] none
      = (anthLoop {} [AnthEvent.messageStart "m1", AnthEvent.contentBlockDelta 0 (.textDelta "hi")]).1.map Sum.inl
        ++ [Sum.inl (.finishMessage "error" {})] := by
  have h1 : ∀ e ∈ [AnthEvent.messageStart "m1", AnthEvent.contentBlockDelta 0 (.textDelta "hi")],
      isMessageStopEvent e = false := by decide
  have h2 : ∀ r tok, AnthEvent.messageDelta r tok
      ∈ [AnthEvent.messageStart "m1", AnthEvent.contentBlockDelta 0 (.textDelta "hi")] →
      r ≠ "tool_use" := by
    intro r tok hm
    simp at hm
  exact ⟨h1, h2, (anthropic_missing_stop_behavior _ h1 h2).1⟩

/-- C7 counterexample: a stream that fails yields only the wrapped
stream error — no finish-message part follows it. -/
theorem anthropic_stream_error_counterexample :
    AnthropicToDataStream [] (some "boom")
      = [Sum.inr ("anthropic stream error: " ++ "boom")] := rfl

/-! ## Accumulator invariant: call-state invocations hold decoded args -/

/-- A part is well-formed for the decoded-args invariant when a
tool invocation in state "call" holds object args. -/
def invArgsOk (p : Part) : Prop :=
  ∀ inv, p.toolInvocation = some inv → inv.state = "call" → ∃ o, inv.args = JVal.obj o

/-- The decoded-args invariant over an accumulator state. -/
def accCallArgsInv (a : DataStreamAccumulator) : Prop :=
  (∀ m ∈ a.messages, ∀ p ∈ m.parts, invArgsOk p) ∧
  (∀ m, a.currentMessage = some m → ∀ p ∈ m.parts, invArgsOk p)

theorem mem_modifyPart : ∀ (ps : List Part) (i : Nat) (f : Part → Part) (q : Part),
    q ∈ modifyPart ps i f → q ∈ ps ∨ ∃ p, ps.get? i = some p ∧ q = f p := by
  intro ps
  induction ps with
  | nil =>
    intro i f q hq
    rw [modifyPart] at hq
    exact absurd hq (by simp)
  | cons p rest ih =>
    intro i f q hq
    cases i with
    | zero =>
      rw [modifyPart] at hq
      rcases List.mem_cons.mp hq with h1 | h1
      · exact Or.inr ⟨p, rfl, h1⟩
      · exact Or.inl (List.mem_cons_of_mem _ h1)
    | succ j =>
      rw [modifyPart] at hq
      rcases List.mem_cons.mp hq with h1 | h1
      · exact Or.inl (h1 ▸ List.mem_cons_self _ _)
      · rcases ih j f q h1 with h2 | ⟨p0, hget, he2⟩
        · exact Or.inl (List.mem_cons_of_mem _ h2)
        · exact Or.inr ⟨p0, hget, he2⟩

theorem invArgsOk_promoteWipPart (p : Part) (h : invArgsOk p) :
    invArgsOk (promoteWipPart p) := by
  unfold promoteWipPart
  split
  · exact h
  split
  · exact h
  next inv hinv =>
    split
    next s hargs =>
      split
      next hne =>
        split
        next parsed hparse =>
          intro inv2 hi hs
          have hi2 : some { inv with args := JVal.obj parsed, state := "call" } = some inv2 := hi
          cases hi2
          exact ⟨parsed, rfl⟩
        next =>
          intro inv2 hi hs
          exact h inv2 hi hs
      next =>
        intro inv2 hi hs
        exact h inv2 hi hs
    next =>
      intro inv2 hi hs
      exact h inv2 hi hs

theorem invArgsOk_promoteWipList : ∀ (wip : List (String × Nat)) (ps : List Part),
    (∀ p ∈ ps, invArgsOk p) → ∀ q ∈ promoteWipList wip ps, invArgsOk q := by
  intro wip
  induction wip with
  | nil =>
    intro ps h q hq
    exact h q hq
  | cons e rest ih =>
    intro ps h q hq
    cases e with
    | mk k idx =>
      rw [promoteWipList] at hq
      refine ih (modifyPart ps idx promoteWipPart) ?_ q hq
      intro p0 hp0
      rcases mem_modifyPart ps idx promoteWipPart p0 hp0 with hmem | ⟨p1, hget, he2⟩
      · exact h p0 hmem
      · subst he2
        exact invArgsOk_promoteWipPart p1 (h p1 (List.get?_mem hget))

theorem ensure_callArgsInv (a : DataStreamAccumulator) (h : accCallArgsInv a) :
    accCallArgsInv a.ensureCurrentMessage := by
  unfold DataStreamAccumulator.ensureCurrentMessage
  split
  · exact h
  · refine ⟨h.1, ?_⟩
    intro m hm
    have hm2 : some { role := "assistant", parts := [] } = some m := hm
    cases hm2
    intro p hp
    exact absurd hp (by simp)

theorem push_callArgsInv (a0 : DataStreamAccumulator) (part : DataStreamPart)
    (h : accCallArgsInv a0) : accCallArgsInv (a0.Push part).1 := by
  have he := ensure_callArgsInv a0 h
  cases part with
  | text s =>
    unfold DataStreamAccumulator.Push
    simp only []
    split
    · exact he
    next m heq =>
      have hparts := he.2 m heq
      refine ⟨he.1, ?_⟩
      intro m2 hm2
      have hm2' : some _ = some m2 := hm2
      cases hm2'
      show ∀ q ∈ (match m.parts.getLast? with
        | some lastP =>
          if lastP.type = "text" then
            m.parts.dropLast ++ [{ lastP with text := lastP.text ++ s }]
          else m.parts ++ [{ type := "text", text := s }]
        | none => m.parts ++ [{ type := "text", text := s }] : List Part), invArgsOk q
      intro q hq
      split at hq
      next lastP hl =>
        split at hq
        · rcases List.mem_append.mp hq with h1 | h1
          · refine hparts q ?_
            rw [eq_dropLast_concat m.parts lastP hl]
            exact List.mem_append_left _ h1
          · rcases List.mem_singleton.mp h1 with rfl
            intro inv hi hs
            refine hparts lastP ?_ inv hi hs
            rw [eq_dropLast_concat m.parts lastP hl]
            simp
        · rcases List.mem_append.mp hq with h1 | h1
          · exact hparts q h1
          · rcases List.mem_singleton.mp h1 with rfl
            intro inv hi hs
            exact Option.noConfusion hi
      next hl =>
        rcases List.mem_append.mp hq with h1 | h1
        · exact hparts q h1
        · rcases List.mem_singleton.mp h1 with rfl
          intro inv hi hs
          exact Option.noConfusion hi
  | reasoning s =>
    unfold DataStreamAccumulator.Push
    simp only []
    split
    · exact he
    next m heq =>
      have hparts := he.2 m heq
      refine ⟨he.1, ?_⟩
      intro m2 hm2
      have hm2' : some _ = some m2 := hm2
      cases hm2'
      show ∀ q ∈ (match findReasoningIdx m.parts with
        | some i => modifyPart m.parts i (fun p => { p with reasoning := p.reasoning ++ s })
        | none => m.parts ++ [{ type := "reasoning", reasoning := s }] : List Part), invArgsOk q
      intro q hq
      split at hq
      · rcases mem_modifyPart _ _ _ q hq with h1 | ⟨p0, hget0, he2⟩
        · exact hparts q h1
        · subst he2
          intro inv hi hs
          exact hparts p0 (List.get?_mem hget0) inv hi hs
      · rcases List.mem_append.mp hq with h1 | h1
        · exact hparts q h1
        · rcases List.mem_singleton.mp h1 with rfl
          intro inv hi hs
          exact Option.noConfusion hi
  | file d mt =>
    unfold DataStreamAccumulator.Push
    simp only []
    split
    · exact he
    next m heq =>
      have hparts := he.2 m heq
      refine ⟨he.1, ?_⟩
      intro m2 hm2
      have hm2' : some _ = some m2 := hm2
      cases hm2'
      intro q hq
      rcases List.mem_append.mp hq with h1 | h1
      · exact hparts q h1
      · rcases List.mem_singleton.mp h1 with rfl
        intro inv hi hs
        exact Option.noConfusion hi
  | source st id url title =>
    unfold DataStreamAccumulator.Push
    simp only []
    split
    · exact he
    next m heq =>
      have hparts := he.2 m heq
      refine ⟨he.1, ?_⟩
      intro m2 hm2
      have hm2' : some _ = some m2 := hm2
      cases hm2'
      intro q hq
      rcases List.mem_append.mp hq with h1 | h1
      · exact hparts q h1
      · rcases List.mem_singleton.mp h1 with rfl
        intro inv hi hs
        exact Option.noConfusion hi
  | startStep mid =>
    unfold DataStreamAccumulator.Push
    simp only []
    split
    · exact he
    next m heq =>
      have hparts := he.2 m heq
      refine ⟨he.1, ?_⟩
      intro m2 hm2
      have hm2' : some _ = some m2 := hm2
      cases hm2'
      have hp1 : (if m.id = "" then { m with id := mid } else m).parts = m.parts := by
        split <;> rfl
      show ∀ q ∈ (if m.id = "" then { m with id := mid } else m).parts
        ++ [({ type := "step-start" } : Part)], invArgsOk q
      intro q hq
      rw [hp1] at hq
      rcases List.mem_append.mp hq with h1 | h1
      · exact hparts q h1
      · rcases List.mem_singleton.mp h1 with rfl
        intro inv hi hs
        exact Option.noConfusion hi
  | toolCallStart id name =>
    unfold DataStreamAccumulator.Push
    simp only []
    split
    · exact he
    next m heq =>
      have hparts := he.2 m heq
      refine ⟨he.1, ?_⟩
      intro m2 hm2
      have hm2' : some _ = some m2 := hm2
      cases hm2'
      intro q hq
      rcases List.mem_append.mp hq with h1 | h1
      · exact hparts q h1
      · rcases List.mem_singleton.mp h1 with rfl
        intro inv hi hs
        have hi2 : some ({ state := "partial-call", toolCallId := id, toolName := name, args := .str "" } : ToolInvocation) = some inv := hi
        cases hi2
        have hs2 : ("partial-call" : String) = "call" := hs
        exact absurd hs2 (by decide)
  | toolCallDelta id d =>
    unfold DataStreamAccumulator.Push
    simp only []
    split
    · exact he
    next m heq =>
      have hparts := he.2 m heq
      split
      · exact he
      next idx hlook =>
        split
        · exact he
        next p hget =>
          split
          · exact he
          next inv hinv =>
            split
            next sArgs hargs =>
              refine ⟨he.1, ?_⟩
              intro m2 hm2
              have hm2' : some _ = some m2 := hm2
              cases hm2'
              show ∀ q ∈ modifyPart m.parts idx (fun q =>
                match q.toolInvocation with
                | some qi => { q with toolInvocation := some { qi with args := .str (sArgs ++ d) } }
                | none => q), invArgsOk q
              intro q hq
              rcases mem_modifyPart _ _ _ q hq with h1 | ⟨p0, hget0, he2⟩
              · exact hparts q h1
              · have hp0 : p0 = p := Option.some.inj (hget0.symm.trans hget)
                subst hp0
                subst he2
                simp only [hinv]
                intro inv2 hi hs
                have hi2 : some { inv with args := JVal.str (sArgs ++ d) } = some inv2 := hi
                cases hi2
                obtain ⟨o, ho⟩ := hparts p0 (List.get?_mem hget0) inv hinv hs
                rw [hargs] at ho
                exact JVal.noConfusion ho
            next =>
              exact he
  | toolCall id name args =>
    unfold DataStreamAccumulator.Push
    simp only []
    split
    · exact he
    next m heq =>
      have hparts := he.2 m heq
      refine ⟨he.1, ?_⟩
      intro m2 hm2
      have hm2' : some _ = some m2 := hm2
      cases hm2'
      show ∀ q ∈ (match findToolPartIdx m.parts id with
        | some i =>
          modifyPart m.parts i
            (fun p =>
              match p.toolInvocation with
              | some inv =>
                { p with
                  toolInvocation := some { inv with toolName := name, args := .obj args, state := "call" }
                  isComplete := true }
              | none => p)
        | none =>
          m.parts ++
            [{ type := "tool-invocation"
               toolInvocation := some
                 { state := "call", toolCallId := id, toolName := name, args := .obj args }
               isComplete := true }] : List Part), invArgsOk q
      intro q hq
      split at hq
      · rcases mem_modifyPart _ _ _ q hq with h1 | ⟨p0, hget0, he2⟩
        · exact hparts q h1
        · subst he2
          rcases hti : p0.toolInvocation with _ | inv0
          · simp only [hti]
            exact hparts p0 (List.get?_mem hget0)
          · simp only [hti]
            intro inv2 hi hs
            have hi2 : some { inv0 with toolName := name, args := JVal.obj args, state := "call" }
              = some inv2 := hi
            cases hi2
            exact ⟨args, rfl⟩
      · rcases List.mem_append.mp hq with h1 | h1
        · exact hparts q h1
        · rcases List.mem_singleton.mp h1 with rfl
          intro inv2 hi hs
          have hi2 : some ({ state := "call", toolCallId := id, toolName := name, args := JVal.obj args } : ToolInvocation) = some inv2 := hi
          cases hi2
          exact ⟨args, rfl⟩
  | toolResult id r =>
    unfold DataStreamAccumulator.Push
    simp only []
    split
    · exact he
    next m heq =>
      have hparts := he.2 m heq
      split
      next i hfind =>
        refine ⟨he.1, ?_⟩
        intro m2 hm2
        have hm2' : some _ = some m2 := hm2
        cases hm2'
        show ∀ q ∈ modifyPart m.parts i (fun p =>
          match p.toolInvocation with
          | some inv => { p with toolInvocation := some { inv with state := "result", result := some r } }
          | none => p), invArgsOk q
        intro q hq
        rcases mem_modifyPart _ _ _ q hq with h1 | ⟨p0, hget0, he2⟩
        · exact hparts q h1
        · subst he2
          rcases hti : p0.toolInvocation with _ | inv0
          · simp only [hti]
            exact hparts p0 (List.get?_mem hget0)
          · simp only [hti]
            intro inv2 hi hs
            have hi2 : some { inv0 with state := "result", result := some r } = some inv2 := hi
            cases hi2
            have hs2 : ("result" : String) = "call" := hs
            exact absurd hs2 (by decide)
      next =>
        exact he
  | streamData content =>
    unfold DataStreamAccumulator.Push
    simp only []
    split
    · exact he
    next m heq =>
      have hparts := he.2 m heq
      refine ⟨he.1, ?_⟩
      intro m2 hm2
      have hm2' : some _ = some m2 := hm2
      cases hm2'
      exact hparts
  | messageAnnotations content =>
    unfold DataStreamAccumulator.Push
    simp only []
    split
    · exact he
    next m heq =>
      have hparts := he.2 m heq
      refine ⟨he.1, ?_⟩
      intro m2 hm2
      have hm2' : some _ = some m2 := hm2
      cases hm2'
      exact hparts
  | finishStep r u cont =>
    unfold DataStreamAccumulator.Push
    simp only []
    split
    next m heq =>
      have hparts := he.2 m heq
      split
      · refine ⟨he.1, ?_⟩
        intro m2 hm2
        have hm2' : some _ = some m2 := hm2
        cases hm2'
        show ∀ q ∈ promoteWipList a0.ensureCurrentMessage.wipToolCalls m.parts, invArgsOk q
        exact invArgsOk_promoteWipList _ _ hparts
      · refine ⟨?_, ?_⟩
        · intro m2 hm2
          rcases List.mem_append.mp hm2 with hmem | hmem
          · exact he.1 m2 hmem
          · rcases List.mem_singleton.mp hmem with rfl
            show ∀ q ∈ promoteWipList a0.ensureCurrentMessage.wipToolCalls m.parts, invArgsOk q
            exact invArgsOk_promoteWipList _ _ hparts
        · intro m2 hm2
          exact Option.noConfusion hm2
    · exact ⟨he.1, he.2⟩
  | finishMessage r u =>
    unfold DataStreamAccumulator.Push
    simp only []
    split
    next m heq =>
      have hparts := h.2 m heq
      refine ⟨?_, ?_⟩
      · intro m2 hm2
        rcases List.mem_append.mp hm2 with hmem | hmem
        · exact h.1 m2 hmem
        · rcases List.mem_singleton.mp hmem with rfl
          show ∀ q ∈ promoteWipList a0.wipToolCalls m.parts, invArgsOk q
          exact invArgsOk_promoteWipList _ _ hparts
      · intro m2 hm2
        exact Option.noConfusion hm2
    · exact ⟨h.1, fun m2 hm2 => Option.noConfusion hm2⟩
  | error content =>
    exact ⟨he.1, he.2⟩
  | redactedReasoning dd =>
    exact he
  | reasoningSignature sg =>
    exact he

theorem pushAllFrom_callArgsInv (ps : List DataStreamPart) :
    ∀ a : DataStreamAccumulator, accCallArgsInv a → accCallArgsInv (pushAllFrom a ps) := by
  induction ps with
  | nil => intro a h; exact h
  | cons p rest ih =>
    intro a h
    exact ih (a.Push p).1 (push_callArgsInv a p h)

/-- C8 (amended): in every message the accumulator produces, a tool
invocation in state "call" holds decoded object args; an invocation in
state "result" can, however, retain the raw accumulated string when
its buffer never parsed (so the claim's "not partial-call" guarantee
holds only for the call state). -/
theorem pushAll_call_args_object (ps : List DataStreamPart) (m : Message)
    (hm : m ∈ (pushAll ps).messages) (p : Part) (hp : p ∈ m.parts)
    (inv : ToolInvocation) (hi : p.toolInvocation = some inv) (hs : inv.state = "call") :
    ∃ o, inv.args = JVal.obj o :=
  (pushAllFrom_callArgsInv ps {}
    ⟨fun _ hme => absurd hme (by simp), fun _ hc => Option.noConfusion hc⟩).1 m hm p hp inv hi hs

theorem pushAll_call_args_object_witness :
    ({ role := "assistant", parts := [{ type := "tool-invocation", toolInvocation := some { state := "call", toolCallId := "t", toolName := "f", args := .obj .nil }, isComplete := true }] } : Message) ∈ (pushAll [DataStreamPart.toolCallStart "t" "f", DataStreamPart.toolCallDelta "t" "\x7b\x7d", DataStreamPart.finishMessage "stop" ({} : Usage)]).messages ∧
    ({ type := "tool-invocation", toolInvocation := some { state := "call", toolCallId := "t", toolName := "f", args := .obj .nil }, isComplete := true } : Part) ∈ ({ role := "assistant", parts := [{ type := "tool-invocation", toolInvocation := some { state := "call", toolCallId := "t", toolName := "f", args := .obj .nil }, isComplete := true }] } : Message).parts ∧
    ({ type := "tool-invocation", toolInvocation := some { state := "call", toolCallId := "t", toolName := "f", args := .obj .nil }, isComplete := true } : Part).toolInvocation = some { state := "call", toolCallId := "t", toolName := "f", args := .obj .nil } ∧
    ({ state := "call", toolCallId := "t", toolName := "f", args := .obj .nil } : ToolInvocation).state = "call" ∧
    ∃ o, ({ state := "call", toolCallId := "t", toolName := "f", args := .obj .nil } : ToolInvocation).args = JVal.obj o := by
  refine ⟨by decide, by decide, rfl, rfl, ?_⟩
  exact pushAll_call_args_object
    [DataStreamPart.toolCallStart "t" "f", DataStreamPart.toolCallDelta "t" "\x7b\x7d", DataStreamPart.finishMessage "stop" ({} : Usage)]
    { role := "assistant", parts := [{ type := "tool-invocation", toolInvocation := some { state := "call", toolCallId := "t", toolName := "f", args := .obj .nil }, isComplete := true }] }
    (by decide)
    { type := "tool-invocation", toolInvocation := some { state := "call", toolCallId := "t", toolName := "f", args := .obj .nil }, isComplete := true }
    (by decide)
    { state := "call", toolCallId := "t", toolName := "f", args := .obj .nil }
    rfl rfl

/-- C8 counterexample: a tool invocation finished by a tool-result
whose delta buffer never parsed as JSON ends in state "result" still
holding the raw string args "xyz". -/
theorem result_retains_raw_args_counterexample :
    (pushAll [DataStreamPart.toolCallStart "t" "f", DataStreamPart.toolCallDelta "t" "xyz",
      DataStreamPart.toolResult "t" (JVal.str "ok"),
      DataStreamPart.finishMessage "stop" ({} : Usage)]).messages.map
        (fun m => m.parts.map (fun p => p.toolInvocation))
      = [[some { state := "result", step := none, toolCallId := "t", toolName := "f", args := JVal.str "xyz", result := some (JVal.str "ok") }]] := by decide

end Aisdk
